import Mathlib

/-!
# tsuru-client: `app-log` (src/tsuru/log.go) and `plan-list` (src/tsuru/plan.go)

A shallow embedding of the log formatter (`logFormatter.Format`), of the
stream writer it is plugged into, of `appLog.Run` and of `renderPlans`,
followed by the properties established about them.

Conventions of the embedding:

* a Go `string` / `[]byte` is a finite sequence of bytes, written `Bytes`
  (one list element per byte);
* an `io.Writer` whose writes cannot fail (the `bytes.Buffer` of the tests,
  the terminal) is represented by the bytes written to it so far; writing
  appends;
* a Go `error` result is an `Option Error`, `none` standing for `nil`;
* functions of other packages that the code calls (`json.Unmarshal`,
  `time`, `cmd.Colorfy`, `cmd.GetURL`, the HTTP client) are fields of `Env`.
-/

set_option autoImplicit false

namespace Tsuru

/-- A Go string or byte slice: one list element per byte. -/
abbrev Bytes := List Char

/-- A point in time (`time.Time`), identified by its instant. -/
abbrev Time := Int

/-- Go error values met by `app-log`. -/
inductive Error where
  /-- The value `tsuruIo.ErrInvalidStreamChunk`. -/
  | ErrInvalidStreamChunk
  /-- The value `io.ErrShortWrite`. -/
  | ErrShortWrite
  /-- Any other error, identified by its message. -/
  | other (msg : Bytes)
  deriving DecidableEq, Repr

/-- The record type `log` of log.go. -/
structure log where
  Date : Time
  Message : Bytes
  Source : Bytes
  Unit : Bytes
  deriving DecidableEq, Repr

/-- How a response body ends: with `io.EOF`, or with a read error. -/
inductive Ending where
  | eof
  | fail (e : Error)
  deriving DecidableEq, Repr

/-- A response body (`io.ReadCloser`) as its reader sees it: the chunks that
successive `Read` calls deliver, then the way the stream ends. Once the
chunks are used up every further `Read` reports the ending again. -/
structure Body where
  chunks : List Bytes
  ending : Ending
  deriving DecidableEq, Repr

/-- The fields of `url.URL` that `url.Parse` fills in (user information apart). -/
structure URL where
  Scheme : Bytes
  Opaque : Bytes
  Host : Bytes
  Path : Bytes
  RawQuery : Bytes
  Fragment : Bytes
  deriving DecidableEq, Repr

/-- The fields of `http.Request` set by `http.NewRequest(method, url, nil)`. -/
structure Request where
  Method : Bytes
  URL : URL
  deriving DecidableEq, Repr

/-- The fields of `http.Response` read by `appLog.Run`. -/
structure Response where
  StatusCode : Nat
  Body : Body
  deriving DecidableEq, Repr

/-- The functions of other packages called by log.go. -/
structure Env where
  /-- The call `json.Unmarshal(data, &logs)` with `logs` of type `[]log`:
  the decoded records, or `none` when it reports an error. -/
  unmarshal : Bytes → Option (List log)
  /-- The rendering `t.In(time.Local).Format("2006-01-02 15:04:05 -0700")`. -/
  localDate : Time → Bytes
  /-- The function `cmd.Colorfy(msg, fontcolor, background, effect)`. -/
  Colorfy : Bytes → Bytes → Bytes → Bytes → Bytes
  /-- The call `c.Guess()` of the embedded `cmd.GuessingCommand`. -/
  Guess : Except Error Bytes
  /-- The function `cmd.GetURL(path)`. -/
  GetURL : Bytes → Except Error Bytes
  /-- The call `client.Do(request)`. -/
  Do : Request → Except Error Response

/-- The line feed byte. -/
def LF : Char := '\n'

/-- The body of the `for _, l := range logs` loop of `logFormatter.Format`:
the text of one `fmt.Fprintf(out, "%s %s\n", ...)`, appended to `out`. -/
def formatOne (env : Env) (out : Bytes) (l : log) : Bytes :=
  let date := env.localDate l.Date
  let pfx :=
    if l.Unit ≠ [] then
      date ++ " [".toList ++ l.Source ++ "][".toList ++ l.Unit ++ "]:".toList
    else
      date ++ " [".toList ++ l.Source ++ "]:".toList
  out ++ (env.Colorfy pfx "blue".toList [] [] ++ " ".toList ++ l.Message ++ [LF])

/-- The method `logFormatter.Format(out, data)`: the contents of `out`
afterwards, and the error returned. -/
def logFormatter.Format (env : Env) (out : Bytes) (data : Bytes) : Bytes × Option Error :=
  match env.unmarshal data with
  | none => (out, some Error.ErrInvalidStreamChunk)
  | some logs => (logs.foldl (formatOne env) out, none)

/-! ## The formatter's contract, in the words of the specification -/

/-- The prefix of a display line as the specification words it:
`<ts> [<source>]:` when the unit is empty, `<ts> [<source>][<unit>]:` otherwise. -/
def specPrefix (env : Env) (l : log) : Bytes :=
  if l.Unit = [] then
    env.localDate l.Date ++ " [".toList ++ l.Source ++ "]:".toList
  else
    env.localDate l.Date ++ " [".toList ++ l.Source ++ "][".toList ++ l.Unit ++ "]:".toList

/-- The display line of one record as the specification words it:
the prefix in blue, a space, the message, a line feed. -/
def specLine (env : Env) (l : log) : Bytes :=
  env.Colorfy (specPrefix env l) "blue".toList [] [] ++ " ".toList ++ l.Message ++ [LF]

/-- The text of a whole unit: the display lines of its records, in order. -/
def specLines (env : Env) (logs : List log) : Bytes :=
  (logs.map (specLine env)).flatten


/-! ## The stream writer (package `tsuru/io`) -/

/-- The longest non-empty front part of `b` that satisfies `ok`, when `b`
has one: the whole of `b` if `ok` holds of it, else the longest shorter one. -/
def longestFront (ok : Bytes → Bool) : Bytes → Option Bytes
  | [] => none
  | c :: cs =>
    match longestFront (fun p => ok (c :: p)) cs with
    | some p => some (c :: p)
    | none => if ok [c] = true then some [c] else none

/-- The state of a `StreamWriter`: `w` is the text written so far to the
writer it wraps, `b` is the accumulation buffer. -/
structure StreamWriter where
  w : Bytes
  b : Bytes
  deriving DecidableEq, Repr

/-- The constructor `tsuruIo.NewStreamWriter(w, logFormatter{})`. -/
def NewStreamWriter (w : Bytes) : StreamWriter := ⟨w, []⟩

/-- The method `Remaining()`: the buffered bytes not consumed so far. -/
def StreamWriter.Remaining (sw : StreamWriter) : Bytes := sw.b

/-- Modelled from the spec: the decode loop of the stream writer's `Write`,
whose source (package `tsuru/io`) is not among the files of this repository.
The writer attempts to parse the contents of the accumulation buffer with
the formatter. When the whole buffer decodes, its records are emitted and
the buffer is emptied (spec §4.1). When only a front part of it decodes, the
writer consumes exactly the bytes that parsed and retains the unparsed
remainder for the next attempt (spec §2, §9); the bytes consumed are the
longest front part that decodes, which is the whole buffer whenever the
whole buffer decodes, and the loop goes on with the remainder (spec §6:
zero or more collections follow one another). When no front part decodes,
nothing is emitted and the buffer is left unchanged, awaiting more input, and
no error is raised while the stream is open (spec §4.1). This is the
behaviour that `TestAppLogWithUnparsableData` shows: one unit, a line feed
and trailing bytes, written at once, give the unit's line and leave the
trailing bytes alone as the remainder. A formatter call that fails writes
nothing, so only the call that decodes is kept. Each round that goes on
consumes at least one byte, so `fuel = len(b)` rounds are enough
(`drain_fuel`). -/
def StreamWriter.drain (env : Env) : Nat → StreamWriter → StreamWriter
  | 0, sw => sw
  | fuel + 1, sw =>
    if sw.b = [] then sw
    else
      match longestFront (fun p => (logFormatter.Format env sw.w p).2.isNone) sw.b with
      | none => sw
      | some p =>
        StreamWriter.drain env fuel ⟨(logFormatter.Format env sw.w p).1, sw.b.drop p.length⟩

/-- Modelled from the spec: the method `Write(chunk)` of the stream writer
(package `tsuru/io`, not among the files of this repository): append the
chunk to the accumulation buffer, then attempt to decode the buffer
(spec §4.1). It returns the writer's new state, the count `len(chunk)` and
a `nil` error. -/
def StreamWriter.Write (env : Env) (sw : StreamWriter) (chunk : Bytes) :
    StreamWriter × Nat × Option Error :=
  let b := sw.b ++ chunk
  (StreamWriter.drain env b.length ⟨sw.w, b⟩, chunk.length, none)

/-- Feeding chunks one after another to the stream writer. -/
def StreamWriter.feed (env : Env) (sw : StreamWriter) (chunks : List Bytes) : StreamWriter :=
  chunks.foldl (fun s c => (StreamWriter.Write env s c).1) sw

/-! ## `io.Copy` and the copy loop of `appLog.Run` -/

/-- The result of one `io.Copy(w, body)`: the writer and the body
afterwards, the chunks handed to `Write` so far (kept for the statements
only), the count `written` and the error returned. -/
structure CopyResult (W : Type) where
  w : W
  body : Body
  passed : List Bytes
  written : Nat
  err : Option Error

/-- The function `io.Copy(dst, src)` of the Go standard library, for a
destination with the given `Write`: read a chunk, write it, until the
source ends or a write or read fails. A read of zero bytes is not written;
`io.EOF` ends the copy with a `nil` error, a write error or a short write
ends it at once, a read error is returned. The arguments are the chunks and
the ending of the source, the destination, the chunks written so far and
the count `written`. -/
def ioCopy {W : Type} (write : W → Bytes → W × Nat × Option Error) :
    List Bytes → Ending → W → List Bytes → Nat → CopyResult W
  | [], Ending.eof, w, passed, written => ⟨w, ⟨[], Ending.eof⟩, passed, written, none⟩
  | [], Ending.fail e, w, passed, written => ⟨w, ⟨[], Ending.fail e⟩, passed, written, some e⟩
  | c :: cs, en, w, passed, written =>
    if c.length > 0 then
      match write w c with
      | (w1, nw, some ew) => ⟨w1, ⟨cs, en⟩, passed ++ [c], written + nw, some ew⟩
      | (w1, nw, none) =>
        if c.length ≠ nw then ⟨w1, ⟨cs, en⟩, passed ++ [c], written + nw, some Error.ErrShortWrite⟩
        else ioCopy write cs en w1 (passed ++ [c]) (written + nw)
    else ioCopy write cs en w passed written

/-- The state of the copy loop of `appLog.Run` when it exits. -/
structure LoopResult (W : Type) where
  w : W
  body : Body
  passed : List Bytes
  /-- The number of `io.Copy` calls made. -/
  copies : Nat
  /-- The value of `n` after the loop: the count of the last copy. -/
  n : Nat
  /-- The value of `err` after the loop. -/
  err : Option Error

/-- The loop
`for n := int64(1); n > 0 && err == nil; n, err = io.Copy(w, response.Body) {}`
at the point where its condition is tested, `n` and `err` being the
current values. `none` means the fuel ran out before the loop exited. -/
def copyLoop {W : Type} (write : W → Bytes → W × Nat × Option Error) :
    Nat → Nat → Option Error → W → Body → List Bytes → Nat → Option (LoopResult W)
  | 0, _, _, _, _, _, _ => none
  | fuel + 1, n, err, w, body, passed, copies =>
    if n > 0 ∧ err = none then
      let r := ioCopy write body.chunks body.ending w passed 0
      copyLoop write fuel r.written r.err r.w r.body r.passed (copies + 1)
    else some ⟨w, body, passed, copies, n, err⟩

/-! ## The request: `fmt`, `net/url` and `net/http` -/

/-- The verb `%d` of `fmt.Sprintf` at an `int`: the decimal digits, with a
leading minus sign for a negative number. -/
def itoa : Int → Bytes
  | Int.ofNat m => Nat.toDigits 10 m
  | Int.negSucc m => '-' :: Nat.toDigits 10 (m + 1)

/-- The helper `split(s, c, cutc)` of `net/url`: `s` cut at the first `c`
(which is dropped when `cutc` is set, and starts the second part when it is
not); `(s, "")` when `s` holds no `c`. -/
def urlSplit (c : Char) (cutc : Bool) : Bytes → Bytes × Bytes
  | [] => ([], [])
  | x :: xs =>
    if x = c then ([], if cutc then xs else x :: xs)
    else (x :: (urlSplit c cutc xs).1, (urlSplit c cutc xs).2)

/-- An ASCII letter. -/
def isLetter (c : Char) : Bool :=
  (decide ('a' ≤ c) && decide (c ≤ 'z')) || (decide ('A' ≤ c) && decide (c ≤ 'Z'))

/-- The characters a scheme may hold after its first letter. -/
def isSchemeRest (c : Char) : Bool :=
  (decide ('0' ≤ c) && decide (c ≤ '9')) || c == '+' || c == '-' || c == '.'

/-- The scan of `getscheme` in `net/url`, `acc` being the bytes passed so far. -/
def getschemeFrom (rawurl : Bytes) : Bytes → Bytes → Except Error (Bytes × Bytes)
  | _, [] => Except.ok ([], rawurl)
  | acc, c :: cs =>
    if isLetter c then getschemeFrom rawurl (acc ++ [c]) cs
    else if isSchemeRest c then
      if acc = [] then Except.ok ([], rawurl) else getschemeFrom rawurl (acc ++ [c]) cs
    else if c = ':' then
      if acc = [] then Except.error (Error.other "missing protocol scheme".toList)
      else Except.ok (acc, cs)
    else Except.ok ([], rawurl)

/-- The helper `getscheme(rawurl)` of `net/url`: the scheme and what follows
its colon, or an empty scheme and the whole text. -/
def getscheme (rawurl : Bytes) : Except Error (Bytes × Bytes) :=
  getschemeFrom rawurl [] rawurl

/-- A hexadecimal digit (`ishex` of `net/url`). -/
def ishex (c : Char) : Bool :=
  (decide ('0' ≤ c) && decide (c ≤ '9')) || (decide ('a' ≤ c) && decide (c ≤ 'f'))
    || (decide ('A' ≤ c) && decide (c ≤ 'F'))

/-- The value of a hexadecimal digit (`unhex` of `net/url`). -/
def unhex (c : Char) : Nat :=
  if decide ('0' ≤ c) && decide (c ≤ '9') then c.toNat - '0'.toNat
  else if decide ('a' ≤ c) && decide (c ≤ 'f') then c.toNat - 'a'.toNat + 10
  else if decide ('A' ≤ c) && decide (c ≤ 'F') then c.toNat - 'A'.toNat + 10
  else 0

/-- Where the scan of `unescape` stands: outside an escape, after a `%`, or
after a `%` and its first hexadecimal digit. -/
inductive EscState where
  | plain
  | percent
  | hex (a : Char)
  deriving DecidableEq, Repr

/-- The scan of `unescape` in `net/url`, byte by byte: `%` must be followed
by two hexadecimal digits, which give one byte; in a query component (`plus`
set) `+` stands for a space; any other byte stands for itself. -/
def unescapeFrom (plus : Bool) : EscState → Bytes → Option Bytes
  | EscState.plain, [] => some []
  | EscState.percent, [] => none
  | EscState.hex _, [] => none
  | EscState.plain, c :: cs =>
    if c = '%' then unescapeFrom plus EscState.percent cs
    else if c = '+' ∧ plus = true then (unescapeFrom plus EscState.plain cs).map (fun r => ' ' :: r)
    else (unescapeFrom plus EscState.plain cs).map (fun r => c :: r)
  | EscState.percent, a :: cs =>
    if ishex a = true then unescapeFrom plus (EscState.hex a) cs else none
  | EscState.hex a, b :: cs =>
    if ishex b = true then
      (unescapeFrom plus EscState.plain cs).map (fun r => Char.ofNat (16 * unhex a + unhex b) :: r)
    else none

/-- The helper `unescape(s, mode)` of `net/url`: percent-decoding, `none` on
a malformed escape; `plus` is set for a query component. -/
def unescape (plus : Bool) (s : Bytes) : Option Bytes :=
  unescapeFrom plus EscState.plain s

/-- A control byte, as `stringContainsCTLByte` of `net/url` tests it: a
byte below 0x20, or 0x7f. -/
def isCTLByte (c : Char) : Bool := decide (c.toNat < 32) || decide (c.toNat = 127)

/-- A decimal digit. -/
def isDigitByte (c : Char) : Bool := decide ('0' ≤ c) && decide (c ≤ '9')

/-- The helper `validOptionalPort(port)` of `net/url`: the empty text, or a
colon followed by decimal digits only. -/
def validOptionalPort : Bytes → Bool
  | [] => true
  | c :: rest => c == ':' && rest.all isDigitByte

/-- The bytes that a host may hold unescaped: those for which
`shouldEscape(c, encodeHost)` of `net/url` is false. -/
def hostByteAllowed (c : Char) : Bool :=
  isLetter c || isDigitByte c || "!$&'()*+,;=:[]<>\"-_.~".toList.contains c

/-- The scan of `unescape(s, mode)` in `net/url` for the modes `encodeHost`
(`zone` false) and `encodeZone` (`zone` true): an ASCII byte that a host may
not hold is an error; `%` must be followed by two hexadecimal digits; in a
host it may only escape a byte from 0x80 on, or stand in `%25`; in a zone it
may only escape a space or a byte that a host may hold, or stand in `%25`. -/
def unescapeHostFrom (zone : Bool) : EscState → Bytes → Option Bytes
  | EscState.plain, [] => some []
  | EscState.percent, [] => none
  | EscState.hex _, [] => none
  | EscState.plain, c :: cs =>
    if c = '%' then unescapeHostFrom zone EscState.percent cs
    else if decide (c.toNat < 128) && !hostByteAllowed c then none
    else (unescapeHostFrom zone EscState.plain cs).map (fun r => c :: r)
  | EscState.percent, a :: cs =>
    if ishex a = true then unescapeHostFrom zone (EscState.hex a) cs else none
  | EscState.hex a, b :: cs =>
    if ishex b = true then
      if !zone && decide (unhex a < 8) && !(a == '2' && b == '5') then none
      else if zone && !(a == '2' && b == '5') && decide (16 * unhex a + unhex b ≠ 32)
          && !hostByteAllowed (Char.ofNat (16 * unhex a + unhex b)) then none
      else
        (unescapeHostFrom zone EscState.plain cs).map
          (fun r => Char.ofNat (16 * unhex a + unhex b) :: r)
    else none

/-- The text cut at the last `c`: what stands before it, and what starts
with it; `none` when the text holds no `c` (`strings.LastIndex`). -/
def cutLast (c : Char) : Bytes → Option (Bytes × Bytes)
  | [] => none
  | x :: xs =>
    match cutLast c xs with
    | some (before, fromC) => some (x :: before, fromC)
    | none => if x = c then some ([], x :: xs) else none

/-- The text cut at the first `%25`: what stands before it, and what starts
with it; `none` when the text holds no `%25` (`strings.Index`). -/
def cutZone : Bytes → Option (Bytes × Bytes)
  | [] => none
  | x :: xs =>
    if "%25".toList.isPrefixOf (x :: xs) = true then some ([], x :: xs)
    else (cutZone xs).map (fun r => (x :: r.1, r.2))

/-- The helper `parseHost(host)` of `net/url` (Go 1.22): what follows the
last `]` of an address in brackets, or starts at the last colon of another
host, must be a valid optional port; the host is then unescaped, a zone
identifier inside brackets (from the first `%25` to the last `]`) on its own
terms. -/
def parseHost (host : Bytes) : Option Bytes :=
  if "[".toList.isPrefixOf host = true then
    match cutLast ']' host with
    | none => none
    | some (inBrackets, fromBracket) =>
      if validOptionalPort (fromBracket.drop 1) = true then
        match cutZone inBrackets with
        | none => unescapeHostFrom false EscState.plain host
        | some (host1, zone) =>
          match unescapeHostFrom false EscState.plain host1,
              unescapeHostFrom true EscState.plain zone,
              unescapeHostFrom false EscState.plain fromBracket with
          | some h1, some h2, some h3 => some (h1 ++ h2 ++ h3)
          | _, _, _ => none
      else none
  else
    match cutLast ':' host with
    | none => unescapeHostFrom false EscState.plain host
    | some (_, colonPort) =>
      if validOptionalPort colonPort = true then unescapeHostFrom false EscState.plain host
      else none

/-- The helper `validUserinfo(s)` of `net/url`. -/
def validUserinfo (s : Bytes) : Bool :=
  s.all (fun c => isLetter c || isDigitByte c || "-._:~!$&'()*+,;=%@".toList.contains c)

/-- The helper `parseAuthority(authority)` of `net/url`, as far as the host
goes: user information, which ends at the last `@`, must be valid and well
escaped; the host after it is parsed. -/
def parseAuthority (authority : Bytes) : Option Bytes :=
  match cutLast '@' authority with
  | none => parseHost authority
  | some (userinfo, atHost) =>
    match parseHost (atHost.drop 1) with
    | none => none
    | some host =>
      if validUserinfo userinfo = true ∧ (unescape false userinfo).isSome = true then some host
      else none

/-- The function `parse(rawURL, false)` of `net/url` (Go standard library,
release 1.22) on a text without fragment. A control byte anywhere in the
text is an error; so are a malformed scheme, a colon in the first segment of
a relative path, an invalid authority and a malformed escape in the path. -/
def urlParseNoFrag (rawurl : Bytes) : Except Error URL :=
  if rawurl.any isCTLByte = true then
    Except.error (Error.other "net/url: invalid control character in URL".toList)
  else if rawurl = ['*'] then Except.ok ⟨[], [], [], ['*'], [], []⟩
  else
    match getscheme rawurl with
    | Except.error e => Except.error e
    | Except.ok (scheme, afterScheme) =>
      let scheme := scheme.map Char.toLower
      let rest := (urlSplit '?' true afterScheme).1
      let rawQuery := (urlSplit '?' true afterScheme).2
      if ¬ ("/".toList.isPrefixOf rest = true) ∧ scheme ≠ [] then
        Except.ok ⟨scheme, rest, [], [], rawQuery, []⟩
      else if ¬ ("/".toList.isPrefixOf rest = true) ∧ ':' ∈ (urlSplit '/' true rest).1 then
        Except.error (Error.other "first path segment in URL cannot contain colon".toList)
      else
        let hasAuthority : Bool :=
          (decide (scheme ≠ []) || !("///".toList.isPrefixOf rest)) && "//".toList.isPrefixOf rest
        let authority := if hasAuthority then (urlSplit '/' false (rest.drop 2)).1 else []
        let pathText := if hasAuthority then (urlSplit '/' false (rest.drop 2)).2 else rest
        match (if hasAuthority then parseAuthority authority else some []) with
        | none => Except.error (Error.other "invalid host".toList)
        | some host =>
          match unescape false pathText with
          | none => Except.error (Error.other "invalid URL escape".toList)
          | some path => Except.ok ⟨scheme, [], host, path, rawQuery, []⟩

/-- The function `url.Parse(rawURL)`: the fragment is cut at the first `#`,
the rest parsed. -/
def urlParse (rawurl : Bytes) : Except Error URL :=
  match urlParseNoFrag (urlSplit '#' true rawurl).1 with
  | Except.error e => Except.error e
  | Except.ok u =>
    if (urlSplit '#' true rawurl).2 = [] then Except.ok u
    else
      match unescape false (urlSplit '#' true rawurl).2 with
      | none => Except.error (Error.other "invalid URL escape".toList)
      | some frag => Except.ok { u with Fragment := frag }

/-- A byte that a method name may hold (`httpguts.IsTokenRune`). -/
def isTokenByte (c : Char) : Bool :=
  isLetter c || isDigitByte c || "!#$%&'*+-.^_`|~".toList.contains c

/-- The index of the last `c` in a text, when it holds one. -/
def lastIndex (c : Char) : Bytes → Option Nat
  | [] => none
  | x :: xs =>
    match lastIndex c xs with
    | some i => some (i + 1)
    | none => if x = c then some 0 else none

/-- The helper `removeEmptyPort(host)` of `net/http`: a colon that ends the
host, with no port after it, is dropped. -/
def removeEmptyPort (host : Bytes) : Bytes :=
  let hasPort : Bool :=
    match lastIndex ':' host, lastIndex ']' host with
    | some i, some j => decide (j < i)
    | some _, none => true
    | none, _ => false
  if hasPort = true ∧ host.getLast? = some ':' then host.dropLast else host

/-- The function `http.NewRequest(method, urlStr, nil)`: an empty method
stands for GET; the method must be a token and the URL must parse; the
request gets the parsed URL, its host without an empty port. -/
def NewRequest (method urlStr : Bytes) : Except Error Request :=
  let method := if method = [] then "GET".toList else method
  if method.all isTokenByte = false then
    Except.error (Error.other "net/http: invalid method".toList)
  else
    match urlParse urlStr with
    | Except.error e => Except.error e
    | Except.ok u => Except.ok ⟨method, { u with Host := removeEmptyPort u.Host }⟩

/-- One `key=value` field of a query, decoded as `url.ParseQuery` does;
`none` when the field holds a semicolon, is empty, or has a malformed escape
(such a field is skipped). -/
def parseField (field : Bytes) : Option (Bytes × Bytes) :=
  if ';' ∈ field then none
  else if field = [] then none
  else
    match unescape true (urlSplit '=' true field).1, unescape true (urlSplit '=' true field).2 with
    | some k, some v => some (k, v)
    | _, _ => none

/-- The method `URL.Query()`: the fields of the raw query, cut at each `&`,
decoded, in their order. -/
def URL.Query (u : URL) : List (Bytes × Bytes) :=
  (u.RawQuery.splitOnP (fun c => c == '&')).filterMap parseField

/-- The first value of a key in a parsed query, when the key occurs. -/
def lookupKey (key : Bytes) : List (Bytes × Bytes) → Option Bytes
  | [] => none
  | (k, v) :: rest => if k = key then some v else lookupKey key rest

/-- The method `Values.Get(key)`: the first value of the key, `""` when the
key does not occur. -/
def Get (vs : List (Bytes × Bytes)) (key : Bytes) : Bytes :=
  (lookupKey key vs).getD []

/-! ## The command -/

/-- The fields of `appLog` that the flags fill in. -/
structure appLog where
  source : Bytes
  unit : Bytes
  lines : Int
  follow : Bool
  deriving DecidableEq, Repr

/-- An entry of a `gnuflag.FlagSet`: the name of a flag, its usage text and
the text of its default value. -/
structure Flag where
  Name : Bytes
  Usage : Bytes
  DefValue : Bytes
  deriving DecidableEq, Repr

/-- The call `c.fs.IntVar(&c.lines, name, value, usage)`: the flag is
registered and the variable takes the default value. -/
def IntVarLines (st : appLog × List Flag) (name : Bytes) (value : Int) (usage : Bytes) :
    appLog × List Flag :=
  ({ st.1 with lines := value }, st.2 ++ [⟨name, usage, itoa value⟩])

/-- The call `c.fs.StringVar(&c.source, name, value, usage)`. -/
def StringVarSource (st : appLog × List Flag) (name value usage : Bytes) :
    appLog × List Flag :=
  ({ st.1 with source := value }, st.2 ++ [⟨name, usage, value⟩])

/-- The call `c.fs.StringVar(&c.unit, name, value, usage)`. -/
def StringVarUnit (st : appLog × List Flag) (name value usage : Bytes) :
    appLog × List Flag :=
  ({ st.1 with unit := value }, st.2 ++ [⟨name, usage, value⟩])

/-- The call `c.fs.BoolVar(&c.follow, name, value, usage)`. -/
def BoolVarFollow (st : appLog × List Flag) (name : Bytes) (value : Bool) (usage : Bytes) :
    appLog × List Flag :=
  ({ st.1 with follow := value },
    st.2 ++ [⟨name, usage, if value = true then "true".toList else "false".toList⟩])

/-- The method `appLog.Flags()` on its first call (`c.fs == nil`): the
command and the flag set afterwards; `guessing` is the flag set that
`c.GuessingCommand.Flags()` returns. -/
def appLog.Flags (guessing : List Flag) (c : appLog) : appLog × List Flag :=
  let st := (c, guessing)
  let st := IntVarLines st "lines".toList 10 "The number of log lines to display".toList
  let st := IntVarLines st "l".toList 10 "The number of log lines to display".toList
  let st := StringVarSource st "source".toList [] "The log from the given source".toList
  let st := StringVarSource st "s".toList [] "The log from the given source".toList
  let st := StringVarUnit st "unit".toList [] "The log from the given unit".toList
  let st := StringVarUnit st "u".toList [] "The log from the given unit".toList
  let st := BoolVarFollow st "follow".toList false "Follow logs".toList
  BoolVarFollow st "f".toList false "Follow logs".toList

/-- What the fields of a new `appLog{}` hold once `Flags()` has registered
the flags: the values they keep when no flag is given. -/
def appLog.defaults : appLog := (appLog.Flags [] ⟨[], [], 0, false⟩).1

/-- The constant `http.StatusNoContent`. -/
def StatusNoContent : Nat := 204

/-- What a run of `appLog.Run` leaves behind. -/
structure RunResult where
  /-- The contents of `context.Stdout`. -/
  stdout : Bytes
  /-- The error returned. -/
  err : Option Error
  /-- The request handed to `client.Do`, if the run got that far. -/
  sent : Option Request
  /-- The response body afterwards, if a response was received. -/
  body : Option Body
  /-- The chunks handed to the stream writer, in order. -/
  passed : List Bytes
  /-- The number of `io.Copy` calls made. -/
  copies : Nat
  /-- The values of `n` and `err` with which the copy loop exited, if the
  run got that far. -/
  exit : Option (Nat × Option Error)
  deriving DecidableEq, Repr

/-- The URL text that `appLog.Run` builds from the result of `cmd.GetURL`. -/
def appLog.addParams (c : appLog) (url : Bytes) : Bytes :=
  let url := if c.source ≠ [] then url ++ "&source=".toList ++ c.source else url
  let url := if c.unit ≠ [] then url ++ "&unit=".toList ++ c.unit else url
  if c.follow = true then url ++ "&follow=1".toList else url

/-- The tail of `appLog.Run`, after the copy loop: the remaining bytes of
the stream writer are written after `Error: ` when there are any, and the
result is `nil`. -/
def appLog.finish (request : Request) (r : LoopResult StreamWriter) : RunResult :=
  let unparsed := r.w.Remaining
  let stdout := if unparsed.length > 0 then r.w.w ++ "Error: ".toList ++ unparsed else r.w.w
  ⟨stdout, none, some request, some r.body, r.passed, r.copies, some (r.n, r.err)⟩

/-- The method `appLog.Run(context, client)`, started with `stdout` as the
contents of `context.Stdout`. The calls `context.RawOutput()` and
`response.Body.Close()` write nothing and are left out. `none` means that
the fuel given to the copy loop ran out. -/
def appLog.Run (env : Env) (c : appLog) (stdout : Bytes) (fuel : Nat) : Option RunResult :=
  match env.Guess with
  | Except.error e => some ⟨stdout, some e, none, none, [], 0, none⟩
  | Except.ok appName =>
    match env.GetURL ("/apps/".toList ++ appName ++ "/log?lines=".toList ++ itoa c.lines) with
    | Except.error e => some ⟨stdout, some e, none, none, [], 0, none⟩
    | Except.ok url =>
      match NewRequest "GET".toList (c.addParams url) with
      | Except.error e => some ⟨stdout, some e, none, none, [], 0, none⟩
      | Except.ok request =>
        match env.Do request with
        | Except.error e => some ⟨stdout, some e, some request, none, [], 0, none⟩
        | Except.ok response =>
          if response.StatusCode = StatusNoContent then
            some ⟨stdout, none, some request, some response.Body, [], 0, none⟩
          else
            (copyLoop (StreamWriter.Write env) fuel 1 none (NewStreamWriter stdout)
                response.Body [] 0).map (appLog.finish request)

/-! ## Concrete instances, used in the examples -/

/-- A decoder given by a finite table: the listed inputs decode to the
records listed with them, every other input is rejected. -/
def tableUnmarshal (table : List (Bytes × List log)) (data : Bytes) : Option (List log) :=
  (table.find? (fun e => e.1 == data)).map (fun e => e.2)

/-- The JSON text of one record, without unit. -/
def unitOne : Bytes :=
  "[\x7b\"Date\":\"2015-03-01T10:00:00Z\",\"Message\":\"hi\",\"Source\":\"app\"\x7d]".toList

/-- The record that `unitOne` holds. -/
def recordOne : log := ⟨1425204000, "hi".toList, "app".toList, []⟩

/-- The JSON text of one record whose message holds a line feed (escaped,
as JSON requires). -/
def unitTwoLines : Bytes :=
  "[\x7b\"Date\":\"2015-03-01T10:00:00Z\",\"Message\":\"a\\nb\",\"Source\":\"app\"\x7d]".toList

/-- The record that `unitTwoLines` holds. -/
def recordTwoLines : log := ⟨1425204000, "a\nb".toList, "app".toList, []⟩

/-- The text `unitOne` with a line feed after its opening bracket: the same
JSON value, laid out on two lines. -/
def unitOnePretty : Bytes := '[' :: LF :: unitOne.tail

/-- Inputs on which `encoding/json` gives the records listed: the empty
array, alone and followed by a line feed; `unitOne`, alone, followed by a
line feed, and laid out on two lines; `unitTwoLines`. The other inputs tried
in the examples (a lone line feed, `[` and a line feed, proper prefixes of
`unitOne`, plain text) are not JSON documents, and are rejected. -/
def sampleTable : List (Bytes × List log) :=
  [("[]".toList, []), ("[]\n".toList, []),
   (unitOne, [recordOne]), (unitOne ++ [LF], [recordOne]), (unitOnePretty, [recordOne]),
   (unitTwoLines, [recordTwoLines])]

/-- An environment for the examples: the table decoder, a clock in UTC that
knows the instant of `recordOne`, an ANSI rendering of colours, the
application `myapp`, a fixed target, and a client that answers every
request with `response`. -/
def sampleEnv (response : Except Error Response) : Env where
  unmarshal := tableUnmarshal sampleTable
  localDate := fun t => if t = 1425204000 then "2015-03-01 10:00:00 +0000".toList else []
  Colorfy := fun msg _ _ _ => "\x1b[0;34;10m".toList ++ msg ++ "\x1b[0m".toList
  Guess := Except.ok "myapp".toList
  GetURL := fun p => Except.ok ("http://tsuru.example:8080".toList ++ p)
  Do := fun _ => response

/-- The sample environment, for the examples that send no request. -/
def demoEnv : Env := sampleEnv (Except.error (Error.other "no server".toList))

/-- The display line of `recordOne` in the sample environment. -/
def lineOne : Bytes := "\x1b[0;34;10m2015-03-01 10:00:00 +0000 [app]:\x1b[0m hi\n".toList

/-- A response with status 200 and the given body. -/
def okResponse (body : Body) : Except Error Response := Except.ok ⟨200, body⟩

/-- The error that a copy returns when the body ends: `nil` at `io.EOF`,
the read error otherwise. -/
def Ending.err : Ending → Option Error
  | Ending.eof => none
  | Ending.fail e => some e

/-- The chunks of a body that carry bytes: the ones `io.Copy` writes. -/
def Body.written (body : Body) : List Bytes :=
  body.chunks.filter (fun c => decide (c ≠ []))

/-- The request that `appLog.Run` builds in the sample environment when no
flag is given. -/
def sampleRequest : Request :=
  ⟨"GET".toList,
    ⟨"http".toList, [], "tsuru.example:8080".toList, "/apps/myapp/log".toList,
      "lines=10".toList, []⟩⟩

/-- The run of `appLog.Run` gets as far as a response: the application name
is found, the URL is built, the request `request` is created and sent, and
the client answers it with `response`. -/
def Receives (env : Env) (c : appLog) (request : Request) (response : Response) : Prop :=
  ∃ appName url,
    env.Guess = Except.ok appName ∧
    env.GetURL ("/apps/".toList ++ appName ++ "/log?lines=".toList ++ itoa c.lines)
      = Except.ok url ∧
    NewRequest "GET".toList (c.addParams url) = Except.ok request ∧
    env.Do request = Except.ok response

/-- The query fields that `appLog.Run` appends to the URL, each after an
`&`: the source and the unit when they are not empty, `follow=1` when
`follow` is set. -/
def appLog.optFields (c : appLog) : List Bytes :=
  (if c.source ≠ [] then ["source=".toList ++ c.source] else []) ++
  (if c.unit ≠ [] then ["unit=".toList ++ c.unit] else []) ++
  (if c.follow = true then ["follow=1".toList] else [])

/-! ## `plan-list` (src/tsuru/plan.go) -/

/-- The fields of `tsuruapp.Plan` that `renderPlans` reads. The type is
declared in package `tsuru/app`, outside this repository: the byte counts
`Memory` and `Swap` are `int64` and `CpuShare` is an `int`, signed integers
that plan.go renders with `%d` and `strconv.Itoa`. -/
structure Plan where
  Name : Bytes
  Memory : Int
  Swap : Int
  CpuShare : Int
  Default : Bool
  Router : Bytes
  deriving DecidableEq, Repr

/-- The part of `cmd.Table` (package `tsuru/cmd`, outside this repository)
that `renderPlans` fills in: the headers, and the rows in the order in which
they were added. -/
structure Table where
  Headers : List Bytes
  rows : List (List Bytes)
  deriving DecidableEq, Repr

/-- The constructor `cmd.NewTable()`: a table without headers or rows. -/
def NewTable : Table := ⟨[], []⟩

/-- The method `table.AddRow(row)`: the row is added after the rows already there. -/
def Table.AddRow (t : Table) (row : List Bytes) : Table :=
  { t with rows := t.rows ++ [row] }

/-- The quotient `a / b` of two Go integers: truncated toward zero. -/
def goDiv (a b : Int) : Int := Int.tdiv a b

/-- The function `strconv.FormatBool`. -/
def FormatBool (b : Bool) : Bytes := if b = true then "true".toList else "false".toList

/-- The text `fmt.Sprintf("%d MB", v/1024/1024)` that `renderPlans` builds
for a byte count when `isHuman` is set. -/
def humanCell (v : Int) : Bytes :=
  itoa (goDiv (goDiv v 1024) 1024) ++ " MB".toList

/-- The body of the `for _, p := range plans` loop of `renderPlans`. -/
def addPlan (isHuman : Bool) (table : Table) (p : Plan) : Table :=
  let memory := if isHuman = true then humanCell p.Memory else itoa p.Memory
  let swap := if isHuman = true then humanCell p.Swap else itoa p.Swap
  table.AddRow [p.Name, memory, swap, itoa p.CpuShare, p.Router, FormatBool p.Default]

/-- The table that `renderPlans` has built when it calls `table.String()`. -/
def planTable (plans : List Plan) (isHuman : Bool) : Table :=
  plans.foldl (addPlan isHuman)
    { NewTable with
      Headers := ["Name".toList, "Memory".toList, "Swap".toList, "Cpu Share".toList,
        "Router".toList, "Default".toList] }

/-- The function `renderPlans(plans, isHuman)`; `render` stands for the
method `String()` of `cmd.Table`. -/
def renderPlans (render : Table → Bytes) (plans : List Plan) (isHuman : Bool) : Bytes :=
  render (planTable plans isHuman)

/-- Two plans for the examples: one with 512 MiB of memory and a swap just
below 1 MiB, one whose byte counts are negative. -/
def samplePlans : List Plan :=
  [⟨"small".toList, 536870912, 1048575, 100, true, "hipache".toList⟩,
   ⟨"odd".toList, -1048576, -1048575, 2, false, "galeb".toList⟩]

/-! ## Lemmas on the formatter -/

theorem formatOne_eq (env : Env) (out : Bytes) (l : log) :
    formatOne env out l = out ++ specLine env l := by
  unfold formatOne specLine specPrefix
  by_cases h : l.Unit = [] <;> simp [h]

theorem foldl_formatOne (env : Env) (logs : List log) (out : Bytes) :
    logs.foldl (formatOne env) out = out ++ specLines env logs := by
  induction logs generalizing out with
  | nil => simp [specLines]
  | cons l ls ih =>
    simp only [List.foldl_cons, ih, formatOne_eq]
    simp [specLines, List.append_assoc]

theorem Format_of_some (env : Env) (out data : Bytes) (logs : List log)
    (h : env.unmarshal data = some logs) :
    logFormatter.Format env out data = (out ++ specLines env logs, none) := by
  simp [logFormatter.Format, h, foldl_formatOne]

theorem Format_of_none (env : Env) (out data : Bytes) (h : env.unmarshal data = none) :
    logFormatter.Format env out data = (out, some Error.ErrInvalidStreamChunk) := by
  simp [logFormatter.Format, h]

/-! ## Lemmas on the stream writer -/

theorem longestFront_none (b : Bytes) :
    ∀ ok : Bytes → Bool, (∀ P : Bytes, P <+: b → P ≠ [] → ok P = false) →
      longestFront ok b = none := by
  induction b with
  | nil => intro ok _; rfl
  | cons c cs ih =>
    intro ok h
    have h1 : longestFront (fun p => ok (c :: p)) cs = none := by
      apply ih
      intro P hP _
      exact h (c :: P) (List.cons_prefix_cons.mpr ⟨rfl, hP⟩) (by simp)
    have h2 : ok [c] = false :=
      h [c] (List.cons_prefix_cons.mpr ⟨rfl, List.nil_prefix⟩) (by simp)
    simp [longestFront, h1, h2]

theorem longestFront_some (b : Bytes) :
    ∀ (ok : Bytes → Bool) (V : Bytes), V <+: b → V ≠ [] → ok V = true →
      (∀ P : Bytes, P <+: b → V.length < P.length → ok P = false) →
      longestFront ok b = some V := by
  induction b with
  | nil =>
    intro ok V hV hne _ _
    exact absurd (List.prefix_nil.mp hV) hne
  | cons c cs ih =>
    intro ok V hV hne hok hlong
    cases V with
    | nil => exact absurd rfl hne
    | cons v V1 =>
      obtain ⟨hv, hV1⟩ := List.cons_prefix_cons.mp hV
      subst hv
      by_cases hnil : V1 = []
      · subst hnil
        have h1 : longestFront (fun p => ok (v :: p)) cs = none := by
          apply longestFront_none
          intro P hP hPne
          apply hlong (v :: P) (List.cons_prefix_cons.mpr ⟨rfl, hP⟩)
          have : 0 < P.length := List.length_pos.mpr hPne
          simp only [List.length_cons, List.length_nil]
          omega
        simp [longestFront, h1, hok]
      · have h1 : longestFront (fun p => ok (v :: p)) cs = some V1 := by
          apply ih (fun p => ok (v :: p)) V1 hV1 hnil hok
          intro P hP hlen
          apply hlong (v :: P) (List.cons_prefix_cons.mpr ⟨rfl, hP⟩)
          simp only [List.length_cons]
          omega
        simp [longestFront, h1]

theorem longestFront_spec (b : Bytes) :
    ∀ (ok : Bytes → Bool) (p : Bytes), longestFront ok b = some p →
      p <+: b ∧ p ≠ [] ∧ ok p = true := by
  induction b with
  | nil => intro ok p h; simp [longestFront] at h
  | cons c cs ih =>
    intro ok p h
    simp only [longestFront] at h
    cases h1 : longestFront (fun q => ok (c :: q)) cs with
    | some q =>
      rw [h1] at h
      simp only [Option.some.injEq] at h
      subst h
      obtain ⟨hq, _, hok⟩ := ih _ q h1
      exact ⟨List.cons_prefix_cons.mpr ⟨rfl, hq⟩, by simp, hok⟩
    | none =>
      rw [h1] at h
      by_cases hc : ok [c] = true
      · simp only [hc, if_true, Option.some.injEq] at h
        subst h
        exact ⟨List.cons_prefix_cons.mpr ⟨rfl, List.nil_prefix⟩, by simp, hc⟩
      · simp [hc] at h

theorem Format_isNone (env : Env) (w p : Bytes) :
    (logFormatter.Format env w p).2.isNone = (env.unmarshal p).isSome := by
  cases h : env.unmarshal p with
  | none => simp [Format_of_none env w p h]
  | some logs => simp [Format_of_some env w p logs h]

theorem drain_nil (env : Env) (fuel : Nat) (w : Bytes) :
    StreamWriter.drain env fuel ⟨w, []⟩ = ⟨w, []⟩ := by
  cases fuel <;> simp [StreamWriter.drain]

/-- One round of the decode loop when no front part of the buffer decodes. -/
theorem drain_none (env : Env) (fuel : Nat) (w b : Bytes)
    (h : longestFront (fun p => (logFormatter.Format env w p).2.isNone) b = none) :
    StreamWriter.drain env fuel ⟨w, b⟩ = ⟨w, b⟩ := by
  cases fuel with
  | zero => rfl
  | succ n =>
    by_cases hb : b = []
    · simp [StreamWriter.drain, hb]
    · simp [StreamWriter.drain, hb, h]

/-- One round of the decode loop when `p` is the longest front part of the
buffer that decodes. -/
theorem drain_some (env : Env) (fuel : Nat) (w b p : Bytes) (logs : List log)
    (h : longestFront (fun p => (logFormatter.Format env w p).2.isNone) b = some p)
    (hp : env.unmarshal p = some logs) :
    StreamWriter.drain env (fuel + 1) ⟨w, b⟩ =
      StreamWriter.drain env fuel ⟨w ++ specLines env logs, b.drop p.length⟩ := by
  have hb : b ≠ [] := by
    intro e
    rw [e] at h
    simp [longestFront] at h
  simp [StreamWriter.drain, hb, h, Format_of_some env w p logs hp]

/-- When no non-empty front part of the buffer decodes, the buffer is left
unchanged and nothing is written. -/
theorem drain_stuck (env : Env) (fuel : Nat) (w b : Bytes)
    (h : ∀ P : Bytes, P <+: b → P ≠ [] → env.unmarshal P = none) :
    StreamWriter.drain env fuel ⟨w, b⟩ = ⟨w, b⟩ := by
  apply drain_none
  apply longestFront_none
  intro P hP hne
  rw [Format_isNone, h P hP hne]
  rfl

/-- When `V` is the longest front part of the buffer that decodes, the
writer emits its records and goes on with the bytes after it. -/
theorem drain_step (env : Env) (fuel : Nat) (w b V : Bytes) (logs : List log)
    (hV : V <+: b) (hne : V ≠ []) (hdec : env.unmarshal V = some logs)
    (hlong : ∀ P : Bytes, P <+: b → V.length < P.length → env.unmarshal P = none) :
    StreamWriter.drain env (fuel + 1) ⟨w, b⟩ =
      StreamWriter.drain env fuel ⟨w ++ specLines env logs, b.drop V.length⟩ := by
  apply drain_some env fuel w b V logs _ hdec
  apply longestFront_some b _ V hV hne
  · rw [Format_isNone, hdec]
    rfl
  · intro P hP hlen
    rw [Format_isNone, hlong P hP hlen]
    rfl

/-- The decode loop of `Write` needs no more rounds than the buffer has bytes:
with that much fuel or more, the result does not depend on the fuel. -/
theorem drain_fuel (env : Env) (fuel : Nat) :
    ∀ (extra : Nat) (sw : StreamWriter), sw.b.length ≤ fuel →
      StreamWriter.drain env (fuel + extra) sw = StreamWriter.drain env fuel sw := by
  induction fuel with
  | zero =>
    intro extra sw h
    have hb : sw.b = [] := List.length_eq_zero.mp (Nat.le_zero.mp h)
    obtain ⟨w, b⟩ := sw
    simp only at hb
    subst hb
    simp [drain_nil]
  | succ n ih =>
    intro extra sw h
    obtain ⟨w, b⟩ := sw
    cases hl : longestFront (fun p => (logFormatter.Format env w p).2.isNone) b with
    | none => simp [drain_none env _ w b hl]
    | some p =>
      obtain ⟨hp, hpne, hok⟩ := longestFront_spec b _ p hl
      rw [Format_isNone] at hok
      obtain ⟨logs, hlogs⟩ := Option.isSome_iff_exists.mp hok
      have e : n + 1 + extra = (n + extra) + 1 := by omega
      rw [e, drain_some env _ w b p logs hl hlogs, drain_some env _ w b p logs hl hlogs]
      apply ih
      have h2 : 0 < p.length := List.length_pos.mpr hpne
      simp only [List.length_drop] at h ⊢
      omega

theorem Write_snd (env : Env) (sw : StreamWriter) (chunk : Bytes) :
    (StreamWriter.Write env sw chunk).2 = (chunk.length, none) := rfl

theorem Write_fst (env : Env) (sw : StreamWriter) (chunk : Bytes) :
    (StreamWriter.Write env sw chunk).1 =
      StreamWriter.drain env (sw.b ++ chunk).length ⟨sw.w, sw.b ++ chunk⟩ := rfl

/-! ## C1, C2: the formatter -/

/-- C1: for every input that decodes as a collection of records,
`logFormatter.Format` returns no error and appends to the output exactly the
display lines of the records, in document order: the prefix
(`<ts> [<source>]:`, or `<ts> [<source>][<unit>]:` when the unit is not
empty) in blue, a space, the message and a line feed. -/
theorem Format_writes_lines (env : Env) (out data : Bytes) (logs : List log)
    (h : env.unmarshal data = some logs) :
    logFormatter.Format env out data =
      (out ++ (logs.map (fun l =>
        env.Colorfy
          (if l.Unit = [] then
            env.localDate l.Date ++ " [".toList ++ l.Source ++ "]:".toList
          else
            env.localDate l.Date ++ " [".toList ++ l.Source ++ "][".toList ++ l.Unit
              ++ "]:".toList)
          "blue".toList [] [] ++ " ".toList ++ l.Message ++ "\n".toList)).flatten, none) := by
  rw [Format_of_some env out data logs h]
  rfl

/-- C1, at the sample unit: one record, one line. -/
theorem Format_writes_lines_witness :
    demoEnv.unmarshal unitOne = some [recordOne] ∧
    logFormatter.Format demoEnv [] unitOne = (lineOne, none) :=
  ⟨by decide, by
    rw [Format_writes_lines demoEnv [] unitOne [recordOne] (by decide)]
    decide⟩

/-- C2: for every input, `logFormatter.Format` returns an error if and only
if the input does not decode as a collection of records; the error is then
`ErrInvalidStreamChunk` and the output is left as it was. -/
theorem Format_error_iff (env : Env) (out data : Bytes) :
    ((logFormatter.Format env out data).2 ≠ none ↔ env.unmarshal data = none) ∧
    (∀ e, (logFormatter.Format env out data).2 = some e →
      logFormatter.Format env out data = (out, some Error.ErrInvalidStreamChunk)) := by
  cases h : env.unmarshal data with
  | none => simp [Format_of_none env out data h]
  | some logs => simp [Format_of_some env out data logs h]

/-! ## Feeding the chunks of one unit -/

theorem feed_cons (env : Env) (sw : StreamWriter) (c : Bytes) (cs : List Bytes) :
    StreamWriter.feed env sw (c :: cs) =
      StreamWriter.feed env (StreamWriter.Write env sw c).1 cs := rfl

/-- Once the unit has been consumed, the trailing bytes only accumulate:
no front part of them decodes. -/
theorem feed_tail (env : Env) (T : Bytes)
    (htail : ∀ Q : Bytes, Q <+: T → Q ≠ [] → env.unmarshal Q = none) (w : Bytes) :
    ∀ (chunks : List Bytes) (T1 : Bytes), T1 ++ chunks.flatten = T →
      StreamWriter.feed env ⟨w, T1⟩ chunks = ⟨w, T⟩ := by
  intro chunks
  induction chunks with
  | nil =>
    intro T1 h
    simp only [List.flatten_nil, List.append_nil] at h
    rw [h]
    rfl
  | cons c cs ih =>
    intro T1 h
    simp only [List.flatten_cons, ← List.append_assoc] at h
    rw [feed_cons, Write_fst]
    have hpfx : (T1 ++ c) <+: T := ⟨cs.flatten, h⟩
    rw [drain_stuck env _ w (T1 ++ c) (fun Q hQ hQne => htail Q (hQ.trans hpfx) hQne)]
    exact ih (T1 ++ c) h

/-- The reads that carry a unit and trailing bytes: while less than the unit
has arrived nothing decodes; the read that completes the unit makes the
writer emit the unit's lines and keep what follows the unit. -/
theorem feed_unit_tail (env : Env) (V T : Bytes) (logs : List log)
    (hdec : env.unmarshal V = some logs) (hV : V ≠ [])
    (hlong : ∀ P : Bytes, P <+: V ++ T → V.length < P.length → env.unmarshal P = none)
    (htail : ∀ Q : Bytes, Q <+: T → Q ≠ [] → env.unmarshal Q = none) (out : Bytes) :
    ∀ (chunks : List Bytes) (P : Bytes), P ++ chunks.flatten = V ++ T →
      P.length < V.length →
      (∀ k : Nat, (P ++ (chunks.take k).flatten).length < V.length →
        ∀ Q : Bytes, Q <+: P ++ (chunks.take k).flatten → Q ≠ [] → env.unmarshal Q = none) →
      StreamWriter.feed env ⟨out, P⟩ chunks = ⟨out ++ specLines env logs, T⟩ := by
  intro chunks
  induction chunks with
  | nil =>
    intro P h hlen _
    simp only [List.flatten_nil, List.append_nil] at h
    rw [h] at hlen
    simp only [List.length_append] at hlen
    omega
  | cons c cs ih =>
    intro P h hlen hreads
    simp only [List.flatten_cons, ← List.append_assoc] at h
    have hpfx : (P ++ c) <+: V ++ T := ⟨cs.flatten, h⟩
    have hreads1 : (P ++ c).length < V.length →
        ∀ Q : Bytes, Q <+: P ++ c → Q ≠ [] → env.unmarshal Q = none := by
      have := hreads 1
      simpa using this
    have hreads2 : ∀ k : Nat, ((P ++ c) ++ (cs.take k).flatten).length < V.length →
        ∀ Q : Bytes, Q <+: (P ++ c) ++ (cs.take k).flatten → Q ≠ [] →
          env.unmarshal Q = none := by
      intro k
      have := hreads (k + 1)
      simpa [List.append_assoc] using this
    rw [feed_cons, Write_fst]
    rcases Nat.lt_or_ge (P ++ c).length V.length with hl | hl
    · rw [drain_stuck env _ out (P ++ c) (hreads1 hl)]
      exact ih (P ++ c) h hl hreads2
    · have hVB : V <+: P ++ c :=
        List.prefix_of_prefix_length_le (List.prefix_append V T) hpfx hl
      obtain ⟨T1, hT1⟩ := hVB
      have hT1T : T1 ++ cs.flatten = T := by
        rw [← hT1, List.append_assoc] at h
        exact List.append_cancel_left h
      have hVpos : 0 < V.length := List.length_pos.mpr hV
      obtain ⟨n, hn⟩ : ∃ n, (P ++ c).length = n + 1 := ⟨(P ++ c).length - 1, by omega⟩
      have hstep := drain_step env n out (P ++ c) V logs ⟨T1, hT1⟩ hV hdec
        (fun Q hQ hQlen => hlong Q (hQ.trans hpfx) hQlen)
      rw [hn, hstep, ← hT1, List.drop_left]
      rw [drain_stuck env n _ T1
        (fun Q hQ hQne => htail Q (hQ.trans ⟨cs.flatten, hT1T⟩) hQne)]
      exact feed_tail env T htail _ cs T1 hT1T

/-! ## Lemmas on `io.Copy` and the copy loop -/

theorem ioCopy_Write (env : Env) (en : Ending) :
    ∀ (chunks : List Bytes) (sw : StreamWriter) (passed : List Bytes) (written : Nat),
      ioCopy (StreamWriter.Write env) chunks en sw passed written =
        ⟨StreamWriter.feed env sw (chunks.filter (fun c => decide (c ≠ []))), ⟨[], en⟩,
          passed ++ chunks.filter (fun c => decide (c ≠ [])),
          written + chunks.flatten.length, en.err⟩ := by
  intro chunks
  induction chunks with
  | nil =>
    intro sw passed written
    cases en <;> simp [ioCopy, StreamWriter.feed, Ending.err]
  | cons c cs ih =>
    intro sw passed written
    by_cases hc : c = []
    · subst hc
      simp [ioCopy, ih]
    · have hpos : c.length > 0 := List.length_pos.mpr hc
      have hw : StreamWriter.Write env sw c =
          ((StreamWriter.Write env sw c).1, c.length, none) := rfl
      rw [ioCopy]
      simp only [hpos, if_true]
      rw [hw]
      simp only [ne_eq, not_true_eq_false, if_false, ih]
      simp [hc, feed_cons, Nat.add_assoc]

/-- The number of `io.Copy` calls that the loop of `appLog.Run` makes on a
body: a second one, which transfers nothing, follows a first one that
transferred bytes and met no error. -/
theorem copyLoop_Write (env : Env) (fuel : Nat) (hfuel : 3 ≤ fuel) (sw : StreamWriter)
    (body : Body) :
    copyLoop (StreamWriter.Write env) fuel 1 none sw body [] 0 =
      some ⟨StreamWriter.feed env sw body.written, ⟨[], body.ending⟩, body.written,
        if body.ending = Ending.eof ∧ body.chunks.flatten ≠ [] then 2 else 1,
        if body.ending = Ending.eof then 0 else body.chunks.flatten.length,
        body.ending.err⟩ := by
  obtain ⟨f, rfl⟩ : ∃ f, fuel = f + 3 := ⟨fuel - 3, by omega⟩
  obtain ⟨chunks, en⟩ := body
  rw [copyLoop]
  simp only [Nat.lt_one_iff, gt_iff_lt, Nat.zero_lt_one, and_self, if_true, ioCopy_Write,
    List.nil_append, Nat.zero_add, Body.written]
  rw [copyLoop]
  cases en with
  | fail e => simp [Ending.err]
  | eof =>
    by_cases hz : chunks.flatten = []
    · simp [Ending.err, hz]
    · have hpos : 0 < chunks.flatten.length := List.length_pos.mpr hz
      simp only [Ending.err, gt_iff_lt, hpos, and_self, if_true, hz]
      rw [copyLoop]
      have hex : ∃ x ∈ chunks, ¬ x = [] := by
        by_contra hcon
        apply hz
        simp only [not_exists, not_and, not_not] at hcon
        exact List.flatten_eq_nil_iff.mpr hcon
      simp [ioCopy, hex]

/-! ## Lemmas on `appLog.Run` -/

theorem specLines_append (env : Env) (a b : List log) :
    specLines env (a ++ b) = specLines env a ++ specLines env b := by
  simp [specLines]

/-- The decode loop only ever appends display lines of decoded records. -/
theorem drain_w (env : Env) (fuel : Nat) :
    ∀ sw : StreamWriter, ∃ logs : List log,
      (StreamWriter.drain env fuel sw).w = sw.w ++ specLines env logs := by
  induction fuel with
  | zero => intro sw; exact ⟨[], by simp [StreamWriter.drain, specLines]⟩
  | succ n ih =>
    intro sw
    obtain ⟨w, b⟩ := sw
    cases hl : longestFront (fun p => (logFormatter.Format env w p).2.isNone) b with
    | none => exact ⟨[], by simp [drain_none env _ w b hl, specLines]⟩
    | some p =>
      obtain ⟨_, _, hok⟩ := longestFront_spec b _ p hl
      rw [Format_isNone] at hok
      obtain ⟨logs, hlogs⟩ := Option.isSome_iff_exists.mp hok
      rw [drain_some env n w b p logs hl hlogs]
      obtain ⟨more, hmore⟩ := ih ⟨w ++ specLines env logs, b.drop p.length⟩
      exact ⟨logs ++ more, by rw [hmore, specLines_append, List.append_assoc]⟩

/-- The stream writer only ever appends display lines of decoded records to
the writer it wraps. -/
theorem feed_w (env : Env) :
    ∀ (chunks : List Bytes) (sw : StreamWriter), ∃ logs : List log,
      (StreamWriter.feed env sw chunks).w = sw.w ++ specLines env logs := by
  intro chunks
  induction chunks with
  | nil => intro sw; exact ⟨[], by simp [StreamWriter.feed, specLines]⟩
  | cons c cs ih =>
    intro sw
    rw [feed_cons]
    obtain ⟨l1, h1⟩ := drain_w env (sw.b ++ c).length ⟨sw.w, sw.b ++ c⟩
    obtain ⟨l2, h2⟩ := ih (StreamWriter.Write env sw c).1
    refine ⟨l1 ++ l2, ?_⟩
    rw [h2, Write_fst, h1, specLines_append, List.append_assoc]

theorem written_flatten (body : Body) : body.written.flatten = body.chunks.flatten := by
  obtain ⟨chunks, en⟩ := body
  simp only [Body.written]
  induction chunks with
  | nil => rfl
  | cons c cs ih =>
    by_cases hc : c = []
    · subst hc; simpa using ih
    · have ih2 : (List.filter (fun c => !decide (c = [])) cs).flatten = cs.flatten := by
        simpa using ih
      simp [List.filter_cons, hc, ih2]

/-- What `appLog.Run` does once a response with a status other than 204 has
arrived: it copies the body to a new stream writer, then finishes. -/
theorem Run_streams (env : Env) (c : appLog) (stdout : Bytes) (fuel : Nat)
    (request : Request) (response : Response) (hfuel : 3 ≤ fuel)
    (hrecv : Receives env c request response)
    (hS : response.StatusCode ≠ StatusNoContent) :
    appLog.Run env c stdout fuel =
      some (appLog.finish request
        ⟨StreamWriter.feed env (NewStreamWriter stdout) response.Body.written,
          ⟨[], response.Body.ending⟩, response.Body.written,
          if response.Body.ending = Ending.eof ∧ response.Body.chunks.flatten ≠ [] then 2 else 1,
          if response.Body.ending = Ending.eof then 0 else response.Body.chunks.flatten.length,
          response.Body.ending.err⟩) := by
  obtain ⟨appName, url, hG, hU, hR, hD⟩ := hrecv
  simp only [appLog.Run, hG, hU, hR, hD, hS, if_false,
    copyLoop_Write env fuel hfuel, Option.map_some']

theorem Run_on_204 (env : Env) (c : appLog) (stdout : Bytes) (fuel : Nat)
    (request : Request) (response : Response)
    (hrecv : Receives env c request response)
    (hS : response.StatusCode = StatusNoContent) :
    appLog.Run env c stdout fuel =
      some ⟨stdout, none, some request, some response.Body, [], 0, none⟩ := by
  obtain ⟨appName, url, hG, hU, hR, hD⟩ := hrecv
  simp only [appLog.Run, hG, hU, hR, hD, hS, if_true]

theorem sample_receives (response : Response) :
    Receives (sampleEnv (Except.ok response)) appLog.defaults sampleRequest response :=
  ⟨"myapp".toList, "http://tsuru.example:8080/apps/myapp/log?lines=10".toList,
    rfl, rfl, rfl, rfl⟩

theorem tableUnmarshal_none (table : List (Bytes × List log)) (P : Bytes)
    (h : ∀ e ∈ table, e.1 ≠ P) : tableUnmarshal table P = none := by
  unfold tableUnmarshal
  rw [Option.map_eq_none', List.find?_eq_none]
  intro e he
  simpa using h e he

theorem unitOne_prefixes (P : Bytes) (hP : P <+: unitOne) (hne : P ≠ []) (hU : P ≠ unitOne) :
    demoEnv.unmarshal P = none := by
  apply tableUnmarshal_none
  have key : ∀ e ∈ sampleTable, e.1 <+: unitOne → e.1 = [] ∨ e.1 = unitOne := by decide
  intro e he heq
  rcases key e he (heq ▸ hP) with h | h
  · exact hne (heq ▸ h)
  · exact hU (heq ▸ h)

theorem unitOne_fronts (B : Bytes) (hB : B <+: unitOne) (hlen : B.length < unitOne.length)
    (Q : Bytes) (hQ : Q <+: B) (hne : Q ≠ []) : tableUnmarshal sampleTable Q = none := by
  apply unitOne_prefixes Q (hQ.trans hB) hne
  intro e
  have := hQ.length_le
  rw [e] at this
  omega

/-! ## C3: chunk boundaries -/

/-- C4: when the body ends with end-of-stream, `appLog.Run` returns `nil`,
and what it has written is the output of the stream writer (the initial
output followed by display lines of decoded records), followed by nothing
when the writer's `Remaining()` is empty and by `Error: ` and the remaining
bytes, verbatim, when it is not. -/
theorem Run_trailing_diagnostic (env : Env) (c : appLog) (stdout : Bytes) (fuel : Nat)
    (request : Request) (response : Response) (hfuel : 3 ≤ fuel)
    (hrecv : Receives env c request response)
    (hS : response.StatusCode ≠ StatusNoContent)
    (heof : response.Body.ending = Ending.eof) :
    ∃ (r : RunResult) (sw : StreamWriter) (logs : List log),
      appLog.Run env c stdout fuel = some r ∧
      sw = StreamWriter.feed env (NewStreamWriter stdout) response.Body.written ∧
      sw.w = stdout ++ specLines env logs ∧
      r.body = some ⟨[], Ending.eof⟩ ∧
      r.err = none ∧
      (sw.Remaining = [] → r.stdout = sw.w) ∧
      (sw.Remaining ≠ [] → r.stdout = sw.w ++ "Error: ".toList ++ sw.Remaining) := by
  obtain ⟨logs, hlogs⟩ := feed_w env response.Body.written (NewStreamWriter stdout)
  refine ⟨_, _, logs, Run_streams env c stdout fuel request response hfuel hrecv hS, rfl,
    hlogs, ?_, rfl, ?_, ?_⟩
  · simp [appLog.finish, heof]
  · intro h
    simp [appLog.finish, h]
  · intro h
    have hpos : 0 < (StreamWriter.feed env (NewStreamWriter stdout)
        response.Body.written).Remaining.length := List.length_pos.mpr h
    simp only [appLog.finish, gt_iff_lt, hpos, if_true]

/-- C4, at two bodies: `unitOne` alone leaves nothing to flag; `unitOne`, a
line feed and `oops` is flagged once, after the record's line. -/
theorem Run_trailing_diagnostic_witness :
    (∃ (r : RunResult) (sw : StreamWriter) (logs : List log),
      appLog.Run (sampleEnv (okResponse ⟨[unitOne], Ending.eof⟩)) appLog.defaults [] 3 = some r ∧
      sw = StreamWriter.feed (sampleEnv (okResponse ⟨[unitOne], Ending.eof⟩))
        (NewStreamWriter []) (Body.written ⟨[unitOne], Ending.eof⟩) ∧
      sw.w = [] ++ specLines (sampleEnv (okResponse ⟨[unitOne], Ending.eof⟩)) logs ∧
      r.body = some ⟨[], Ending.eof⟩ ∧
      r.err = none ∧
      (sw.Remaining = [] → r.stdout = sw.w) ∧
      (sw.Remaining ≠ [] → r.stdout = sw.w ++ "Error: ".toList ++ sw.Remaining)) ∧
    (appLog.Run (sampleEnv (okResponse ⟨[unitOne], Ending.eof⟩)) appLog.defaults [] 3).map
      (fun r => (r.stdout, r.err)) = some (lineOne, none) ∧
    (appLog.Run (sampleEnv (okResponse ⟨[unitOne ++ LF :: "oops".toList], Ending.eof⟩))
      appLog.defaults [] 3).map (fun r => (r.stdout, r.err))
      = some (lineOne ++ "Error: oops".toList, none) :=
  ⟨Run_trailing_diagnostic (sampleEnv (okResponse ⟨[unitOne], Ending.eof⟩)) appLog.defaults []
      3 sampleRequest ⟨200, ⟨[unitOne], Ending.eof⟩⟩ (by decide) (sample_receives _)
      (by decide) rfl,
    by decide, by decide⟩

/-- C5 as stated fails: on a body that delivers `x` and then fails with a
read error, `appLog.Run` returns `nil`, not the error, and writes the
trailing diagnostic `Error: x`. -/
theorem Run_read_error_counterexample :
    appLog.Run
      (sampleEnv (okResponse ⟨["x".toList], Ending.fail (Error.other "connection reset".toList)⟩))
      appLog.defaults [] 3
    = some ⟨"Error: x".toList, none, some sampleRequest,
        some ⟨[], Ending.fail (Error.other "connection reset".toList)⟩, ["x".toList], 1,
        some (1, some (Error.other "connection reset".toList))⟩ := by
  decide

/-- C5, amended: when the body read fails with an error part-way through
the stream, the copy loop stops at that error: exactly one copy is made, the
loop exits with the error in `err`, and the stream writer receives the
chunks read before the error and nothing more. `appLog.Run` then returns
`nil`, not the error, and writes the output of the stream writer followed by
`Error: ` and the writer's remaining bytes when there are any. -/
theorem Run_read_error (env : Env) (c : appLog) (stdout : Bytes) (fuel : Nat)
    (request : Request) (response : Response) (e : Error) (hfuel : 3 ≤ fuel)
    (hrecv : Receives env c request response)
    (hS : response.StatusCode ≠ StatusNoContent)
    (hfail : response.Body.ending = Ending.fail e) :
    ∃ (r : RunResult) (sw : StreamWriter),
      appLog.Run env c stdout fuel = some r ∧
      sw = StreamWriter.feed env (NewStreamWriter stdout) response.Body.written ∧
      r.err = none ∧ r.copies = 1 ∧
      r.exit = some (response.Body.chunks.flatten.length, some e) ∧
      r.passed = response.Body.written ∧
      r.stdout = sw.w ++ (if sw.Remaining = [] then [] else "Error: ".toList ++ sw.Remaining) := by
  refine ⟨_, _, Run_streams env c stdout fuel request response hfuel hrecv hS, rfl, rfl,
    ?_, ?_, rfl, ?_⟩
  · simp [appLog.finish, hfail]
  · simp [appLog.finish, hfail, Ending.err]
  · by_cases h : (StreamWriter.feed env (NewStreamWriter stdout)
        response.Body.written).Remaining = []
    · simp [appLog.finish, h]
    · have hpos : 0 < (StreamWriter.feed env (NewStreamWriter stdout)
          response.Body.written).Remaining.length := List.length_pos.mpr h
      simp only [appLog.finish, gt_iff_lt, hpos, if_true, h, if_false, List.append_assoc]

/-- C5, amended, at a body that delivers `unitOne`, a line feed, then `x`,
then fails. -/
theorem Run_read_error_witness :
    ∃ (r : RunResult) (sw : StreamWriter),
      appLog.Run
        (sampleEnv (okResponse ⟨[unitOne ++ [LF], "x".toList],
          Ending.fail (Error.other "connection reset".toList)⟩)) appLog.defaults [] 3 = some r ∧
      sw = StreamWriter.feed
        (sampleEnv (okResponse ⟨[unitOne ++ [LF], "x".toList],
          Ending.fail (Error.other "connection reset".toList)⟩)) (NewStreamWriter [])
        (Body.written ⟨[unitOne ++ [LF], "x".toList],
          Ending.fail (Error.other "connection reset".toList)⟩) ∧
      r.err = none ∧ r.copies = 1 ∧
      r.exit = some ((Body.mk [unitOne ++ [LF], "x".toList]
          (Ending.fail (Error.other "connection reset".toList))).chunks.flatten.length,
        some (Error.other "connection reset".toList)) ∧
      r.passed = Body.written ⟨[unitOne ++ [LF], "x".toList],
          Ending.fail (Error.other "connection reset".toList)⟩ ∧
      r.stdout = sw.w ++ (if sw.Remaining = [] then [] else "Error: ".toList ++ sw.Remaining) :=
  Run_read_error
    (sampleEnv (okResponse ⟨[unitOne ++ [LF], "x".toList],
      Ending.fail (Error.other "connection reset".toList)⟩)) appLog.defaults [] 3 sampleRequest
    ⟨200, ⟨[unitOne ++ [LF], "x".toList], Ending.fail (Error.other "connection reset".toList)⟩⟩
    (Error.other "connection reset".toList) (by decide) (sample_receives _) (by decide) rfl

/-- C6: when the response status is 204 (no content), `appLog.Run` returns
`nil` and leaves the output as it was, whatever the body holds: the copy
loop is not entered, no copy is made, nothing is handed to the stream
writer, the body is left unread. -/
theorem Run_no_content (env : Env) (c : appLog) (stdout : Bytes) (fuel : Nat)
    (request : Request) (response : Response)
    (hrecv : Receives env c request response)
    (hS : response.StatusCode = StatusNoContent) :
    ∃ r : RunResult,
      appLog.Run env c stdout fuel = some r ∧
      r.err = none ∧ r.stdout = stdout ∧ r.copies = 0 ∧ r.exit = none ∧ r.passed = [] ∧
      r.body = some response.Body :=
  ⟨_, Run_on_204 env c stdout fuel request response hrecv hS, rfl, rfl, rfl, rfl, rfl, rfl⟩

/-- C6, at a 204 response whose body holds a unit, with no fuel at all. -/
theorem Run_no_content_witness :
    ∃ r : RunResult,
      appLog.Run (sampleEnv (Except.ok ⟨204, ⟨[unitOne], Ending.eof⟩⟩)) appLog.defaults
        "before".toList 0 = some r ∧
      r.err = none ∧ r.stdout = "before".toList ∧ r.copies = 0 ∧ r.exit = none ∧
      r.passed = [] ∧ r.body = some ⟨[unitOne], Ending.eof⟩ :=
  Run_no_content (sampleEnv (Except.ok ⟨204, ⟨[unitOne], Ending.eof⟩⟩)) appLog.defaults
    "before".toList 0 sampleRequest ⟨204, ⟨[unitOne], Ending.eof⟩⟩ (sample_receives _) rfl

/-- What holds of the bytes delivered up to each read holds of the bytes
written up to each write: the reads that deliver nothing are not written. -/
theorem cut_written (p : Bytes → Prop) :
    ∀ (chunks : List Bytes) (acc : Bytes), (∀ k : Nat, p (acc ++ (chunks.take k).flatten)) →
      ∀ k : Nat, p (acc ++ ((chunks.filter (fun c => decide (c ≠ []))).take k).flatten) := by
  intro chunks
  induction chunks with
  | nil => intro acc h k; simpa using h 0
  | cons c cs ih =>
    intro acc h k
    by_cases hc : c = []
    · subst hc
      have h2 : ∀ k : Nat, p (acc ++ (cs.take k).flatten) := by
        intro j
        simpa using h (j + 1)
      simpa using ih acc h2 k
    · have h2 : ∀ k : Nat, p ((acc ++ c) ++ (cs.take k).flatten) := by
        intro j
        simpa [List.append_assoc] using h (j + 1)
      cases k with
      | zero => simpa using h 0
      | succ j =>
        have := ih (acc ++ c) h2 j
        simpa [List.filter_cons, hc, List.append_assoc] using this

/-- C7 as stated fails at the body of the test itself (the unit `unitOne`, a
line feed, `unparseable data`) when it arrives in two reads, the first of
which ends right after the unit: the record is displayed, but the line feed
is flagged together with the trailing bytes. -/
theorem Run_unparsable_tail_counterexample :
    demoEnv.unmarshal unitOne = some [recordOne] ∧
    [unitOne, LF :: "unparseable data".toList].flatten
      = unitOne ++ LF :: "unparseable data".toList ∧
    (appLog.Run
      (sampleEnv (okResponse ⟨[unitOne, LF :: "unparseable data".toList], Ending.eof⟩))
      appLog.defaults [] 3).map (fun r => (r.stdout, r.err))
      = some (lineOne ++ "Error: \nunparseable data".toList, none) := by
  decide

/-- C7, amended: for every response body whose bytes are a unit `V` followed
by non-empty trailing bytes `T`, where `V` decodes, no longer front part of
the stream decodes and no front part of `T` decodes, and for every way in
which the reads deliver these bytes such that, as long as less than `V` has
arrived, no front part of what has arrived decodes, `appLog.Run` writes the
display lines of the records of `V`, then `Error: ` followed by `T`
verbatim, and returns `nil`. In the test `V` is the JSON of one record with
the line feed that follows it. -/
theorem Run_unparsable_tail (env : Env) (c : appLog) (stdout : Bytes) (fuel : Nat)
    (request : Request) (response : Response) (V T : Bytes) (logs : List log)
    (hfuel : 3 ≤ fuel)
    (hrecv : Receives env c request response)
    (hS : response.StatusCode ≠ StatusNoContent)
    (hstream : response.Body.chunks.flatten = V ++ T)
    (hdec : env.unmarshal V = some logs)
    (hV : V ≠ [])
    (hT : T ≠ [])
    (hlong : ∀ P : Bytes, P <+: V ++ T → V.length < P.length → env.unmarshal P = none)
    (htail : ∀ Q : Bytes, Q <+: T → Q ≠ [] → env.unmarshal Q = none)
    (hreads : ∀ k : Nat, ((response.Body.chunks.take k).flatten).length < V.length →
      ∀ Q : Bytes, Q <+: (response.Body.chunks.take k).flatten → Q ≠ [] →
        env.unmarshal Q = none) :
    ∃ r : RunResult,
      appLog.Run env c stdout fuel = some r ∧
      r.err = none ∧
      r.stdout = stdout ++ specLines env logs ++ "Error: ".toList ++ T := by
  have hfeed : StreamWriter.feed env (NewStreamWriter stdout) response.Body.written
      = ⟨stdout ++ specLines env logs, T⟩ := by
    apply feed_unit_tail env V T logs hdec hV hlong htail stdout response.Body.written []
    · rw [List.nil_append, written_flatten, hstream]
    · exact List.length_pos.mpr hV
    · have := cut_written
        (fun B => B.length < V.length → ∀ Q : Bytes, Q <+: B → Q ≠ [] → env.unmarshal Q = none)
        response.Body.chunks [] (by simpa using hreads)
      simpa [Body.written] using this
  refine ⟨_, Run_streams env c stdout fuel request response hfuel hrecv hS, rfl, ?_⟩
  have hpos : 0 < T.length := List.length_pos.mpr hT
  simp only [appLog.finish, hfeed, StreamWriter.Remaining, gt_iff_lt, hpos, if_true]

theorem sample_tail_fronts (P : Bytes)
    (hP : P <+: (unitOne ++ [LF]) ++ "unparseable data".toList)
    (hlen : (unitOne ++ [LF]).length < P.length) : tableUnmarshal sampleTable P = none := by
  apply tableUnmarshal_none
  have key : ∀ e ∈ sampleTable, e.1 <+: (unitOne ++ [LF]) ++ "unparseable data".toList →
      e.1.length ≤ (unitOne ++ [LF]).length := by decide
  intro e he heq
  have := key e he (heq ▸ hP)
  rw [heq] at this
  omega

theorem sample_tail_alone (Q : Bytes) (hQ : Q <+: "unparseable data".toList) (hne : Q ≠ []) :
    tableUnmarshal sampleTable Q = none := by
  apply tableUnmarshal_none
  have key : ∀ e ∈ sampleTable, e.1 <+: "unparseable data".toList → e.1 = [] := by decide
  intro e he heq
  exact hne (heq ▸ key e he (heq ▸ hQ))

/-- C7, amended, at the body of the test (one record, a line feed,
`unparseable data`) delivered in two reads cut inside the record; delivered
in one read, as the test does, it gives the same output. -/
theorem Run_unparsable_tail_witness :
    ([unitOne.take 30, unitOne.drop 30 ++ LF :: "unparseable data".toList].flatten
        = (unitOne ++ [LF]) ++ "unparseable data".toList ∧
      tableUnmarshal sampleTable (unitOne ++ [LF]) = some [recordOne]) ∧
    (∃ r : RunResult,
      appLog.Run
        (sampleEnv (okResponse
          ⟨[unitOne.take 30, unitOne.drop 30 ++ LF :: "unparseable data".toList], Ending.eof⟩))
        appLog.defaults [] 3 = some r ∧
      r.err = none ∧
      r.stdout = [] ++
        specLines (sampleEnv (okResponse
          ⟨[unitOne.take 30, unitOne.drop 30 ++ LF :: "unparseable data".toList], Ending.eof⟩))
          [recordOne] ++ "Error: ".toList ++ "unparseable data".toList) ∧
    (appLog.Run (sampleEnv (okResponse ⟨[unitOne ++ LF :: "unparseable data".toList], Ending.eof⟩))
      appLog.defaults [] 3).map (fun r => r.stdout)
      = some (lineOne ++ "Error: unparseable data".toList) :=
  have hreads : ∀ k : Nat,
      (([unitOne.take 30, unitOne.drop 30 ++ LF :: "unparseable data".toList].take k).flatten).length
        < (unitOne ++ [LF]).length →
      ∀ Q : Bytes,
        Q <+: ([unitOne.take 30, unitOne.drop 30 ++ LF :: "unparseable data".toList].take k).flatten
          → Q ≠ [] → tableUnmarshal sampleTable Q = none := by
    intro k
    match k with
    | 0 =>
      intro _ Q hQ hne
      exact absurd (List.prefix_nil.mp hQ) hne
    | 1 =>
      intro _ Q hQ hne
      have hQ1 : Q <+: [unitOne.take 30].flatten := hQ
      exact unitOne_fronts _ (by decide) (by decide) Q hQ1 hne
    | j + 2 =>
      intro hlen
      simp only [List.take_succ_cons, List.take_nil] at hlen
      exact absurd hlen (by decide)
  ⟨⟨by decide, by decide⟩,
    Run_unparsable_tail
      (sampleEnv (okResponse
        ⟨[unitOne.take 30, unitOne.drop 30 ++ LF :: "unparseable data".toList], Ending.eof⟩))
      appLog.defaults [] 3 sampleRequest
      ⟨200, ⟨[unitOne.take 30, unitOne.drop 30 ++ LF :: "unparseable data".toList],
        Ending.eof⟩⟩ (unitOne ++ [LF]) "unparseable data".toList [recordOne]
      (by decide) (sample_receives _) (by decide) (by decide) (by decide) (by decide)
      (by decide) sample_tail_fronts sample_tail_alone hreads,
    by decide⟩

/-! ## C8: one display line per record -/

/-- C8 as stated fails: the record of `unitTwoLines`, whose message holds a
line feed, is written as a text with two line feeds. -/
theorem Format_single_line_counterexample :
    logFormatter.Format demoEnv [] unitTwoLines
      = ("\x1b[0;34;10m2015-03-01 10:00:00 +0000 [app]:\x1b[0m a\nb\n".toList, none) ∧
    (logFormatter.Format demoEnv [] unitTwoLines).1.count LF = 2 := by
  decide

theorem count_LF_specLine (env : Env) (l : log)
    (hcol : ∀ s : Bytes, LF ∉ s → LF ∉ env.Colorfy s "blue".toList [] [])
    (hts : LF ∉ env.localDate l.Date) (hsrc : LF ∉ l.Source) (hunit : LF ∉ l.Unit)
    (hmsg : LF ∉ l.Message) : (specLine env l).count LF = 1 := by
  have h1 : LF ∉ " [".toList := by decide
  have h2 : LF ∉ "][".toList := by decide
  have h3 : LF ∉ "]:".toList := by decide
  have h4 : LF ∉ " ".toList := by decide
  have hp : LF ∉ specPrefix env l := by
    unfold specPrefix
    by_cases hu : l.Unit = []
    · simp only [hu, if_true, List.mem_append, not_or]
      exact ⟨⟨⟨hts, h1⟩, hsrc⟩, h3⟩
    · simp only [hu, if_false, List.mem_append, not_or]
      exact ⟨⟨⟨⟨⟨hts, h1⟩, hsrc⟩, h2⟩, hunit⟩, h3⟩
  unfold specLine
  simp only [List.count_append]
  rw [List.count_eq_zero.mpr (hcol _ hp), List.count_eq_zero.mpr h4,
    List.count_eq_zero.mpr hmsg]
  simp

theorem getLast_specLine (env : Env) (l : log) : (specLine env l).getLast? = some LF := by
  unfold specLine
  exact List.getLast?_concat _

/-- C8, amended: for every decoded record whose message, source, unit and
rendered timestamp hold no line feed (colouring adding none), the text that
`logFormatter.Format` writes for the record is a single display line: it
ends with a line feed, which is its only one; the text of the unit then has
as many line feeds as the unit has records. -/
theorem Format_single_line (env : Env) (data : Bytes) (logs : List log)
    (h : env.unmarshal data = some logs)
    (hcol : ∀ s : Bytes, LF ∉ s → LF ∉ env.Colorfy s "blue".toList [] [])
    (hrec : ∀ l ∈ logs, LF ∉ env.localDate l.Date ∧ LF ∉ l.Source ∧ LF ∉ l.Unit ∧
      LF ∉ l.Message) :
    (∀ l ∈ logs, (formatOne env [] l).getLast? = some LF ∧ (formatOne env [] l).count LF = 1) ∧
    (logFormatter.Format env [] data).1.count LF = logs.length := by
  constructor
  · intro l hl
    obtain ⟨a, b, c, d⟩ := hrec l hl
    rw [formatOne_eq, List.nil_append]
    exact ⟨getLast_specLine env l, count_LF_specLine env l hcol a b c d⟩
  · rw [Format_of_some env [] data logs h]
    simp only [List.nil_append]
    clear h
    induction logs with
    | nil => rfl
    | cons l ls ih =>
      obtain ⟨a, b, c, d⟩ := hrec l (List.mem_cons_self l ls)
      have hls := ih (fun x hx => hrec x (List.mem_cons_of_mem l hx))
      have e : specLines env (l :: ls) = specLine env l ++ specLines env ls := by
        simp [specLines]
      rw [e, List.count_append, hls, count_LF_specLine env l hcol a b c d]
      simp [Nat.add_comm]

/-- C8, amended, at the sample unit. -/
theorem Format_single_line_witness :
    (∀ l ∈ [recordOne],
      (formatOne demoEnv [] l).getLast? = some LF ∧ (formatOne demoEnv [] l).count LF = 1) ∧
    (logFormatter.Format demoEnv [] unitOne).1.count LF = [recordOne].length :=
  Format_single_line demoEnv unitOne [recordOne] (by decide)
    (by
      intro s hs
      show LF ∉ "\x1b[0;34;10m".toList ++ s ++ "\x1b[0m".toList
      have h1 : LF ∉ "\x1b[0;34;10m".toList := by decide
      have h2 : LF ∉ "\x1b[0m".toList := by decide
      simp only [List.mem_append, not_or]
      exact ⟨⟨h1, hs⟩, h2⟩)
    (by decide)

/-! ## C10: the copy loop -/

/-- C10: on every response body that delivers finitely many chunks and then
end-of-stream, the copy loop of `appLog.Run` exits (three tests of its
condition are enough), the chunks handed to the stream writer are, in order
and concatenated, the body's byte stream, the body has been read to its end,
and the loop has made one copy when the body is empty and two otherwise; it
exits with `n = 0` and no error, that is, after a copy that transferred
nothing. -/
theorem Run_copies_whole_body (env : Env) (c : appLog) (stdout : Bytes) (fuel : Nat)
    (request : Request) (response : Response) (hfuel : 3 ≤ fuel)
    (hrecv : Receives env c request response)
    (hS : response.StatusCode ≠ StatusNoContent)
    (heof : response.Body.ending = Ending.eof) :
    ∃ r : RunResult,
      appLog.Run env c stdout fuel = some r ∧
      r.passed.flatten = response.Body.chunks.flatten ∧
      r.passed = response.Body.chunks.filter (fun ch => decide (ch ≠ [])) ∧
      r.body = some ⟨[], Ending.eof⟩ ∧
      r.exit = some (0, none) ∧
      r.copies = (if response.Body.chunks.flatten = [] then 1 else 2) := by
  refine ⟨_, Run_streams env c stdout fuel request response hfuel hrecv hS, ?_, rfl, ?_, ?_,
    ?_⟩
  · exact written_flatten response.Body
  · simp [appLog.finish, heof]
  · simp [appLog.finish, heof, Ending.err]
  · by_cases hz : response.Body.chunks.flatten = []
    · simp [appLog.finish, hz]
    · simp only [appLog.finish, heof, hz, ne_eq, not_false_eq_true, and_self, if_true, if_false]

/-- C10, at a body of four chunks, one of them empty, cut inside the record. -/
theorem Run_copies_whole_body_witness :
    ∃ r : RunResult,
      appLog.Run
        (sampleEnv (okResponse ⟨[unitOne.take 9, [], unitOne.drop 9, "\nrest".toList], Ending.eof⟩))
        appLog.defaults [] 3 = some r ∧
      r.passed.flatten
        = (Body.mk [unitOne.take 9, [], unitOne.drop 9, "\nrest".toList] Ending.eof).chunks.flatten ∧
      r.passed = (Body.mk [unitOne.take 9, [], unitOne.drop 9, "\nrest".toList]
        Ending.eof).chunks.filter (fun ch => decide (ch ≠ [])) ∧
      r.body = some ⟨[], Ending.eof⟩ ∧
      r.exit = some (0, none) ∧
      r.copies = (if (Body.mk [unitOne.take 9, [], unitOne.drop 9, "\nrest".toList]
        Ending.eof).chunks.flatten = [] then 1 else 2) :=
  Run_copies_whole_body
    (sampleEnv (okResponse ⟨[unitOne.take 9, [], unitOne.drop 9, "\nrest".toList], Ending.eof⟩))
    appLog.defaults [] 3 sampleRequest
    ⟨200, ⟨[unitOne.take 9, [], unitOne.drop 9, "\nrest".toList], Ending.eof⟩⟩
    (by decide) (sample_receives _) (by decide) rfl

/-! ## Lemmas on the request -/

theorem urlSplit_not_mem (c : Char) (cutc : Bool) (s : Bytes) (h : c ∉ s) :
    urlSplit c cutc s = (s, []) := by
  induction s with
  | nil => rfl
  | cons x xs ih =>
    have hx : x ≠ c := fun e => h (by simp [e])
    have hxs : c ∉ xs := fun e => h (by simp [e])
    simp [urlSplit, hx, ih hxs]

theorem urlSplit_append (c : Char) (cutc : Bool) (p r : Bytes) (h : c ∉ p) :
    urlSplit c cutc (p ++ c :: r) = (p, if cutc then r else c :: r) := by
  induction p with
  | nil => simp [urlSplit]
  | cons x xs ih =>
    have hx : x ≠ c := fun e => h (by simp [e])
    have hxs : c ∉ xs := fun e => h (by simp [e])
    simp [urlSplit, hx, ih hxs]

theorem unescape_plain (plus : Bool) (s : Bytes) (h1 : '%' ∉ s) (h2 : plus = false ∨ '+' ∉ s) :
    unescape plus s = some s := by
  unfold unescape
  induction s with
  | nil => rfl
  | cons x xs ih =>
    have hx : x ≠ '%' := fun e => h1 (by simp [e])
    have hxs : '%' ∉ xs := fun e => h1 (by simp [e])
    have h2' : plus = false ∨ '+' ∉ xs := by
      rcases h2 with h | h
      · exact Or.inl h
      · exact Or.inr (fun e => h (by simp [e]))
    have hp : ¬ (x = '+' ∧ plus = true) := by
      rintro ⟨e1, e2⟩
      rcases h2 with h | h
      · simp [h] at e2
      · exact h (by simp [e1])
    simp [unescapeFrom, hx, hp, ih hxs h2']

theorem getscheme_http (rest : Bytes) :
    getscheme ("http".toList ++ ':' :: rest) = Except.ok ("http".toList, rest) := rfl

theorem getscheme_https (rest : Bytes) :
    getscheme ("https".toList ++ ':' :: rest) = Except.ok ("https".toList, rest) := rfl

theorem digitChar_mem (d : Nat) (h : d < 10) : Nat.digitChar d ∈ "0123456789".toList := by
  interval_cases d <;> decide

theorem toDigitsCore_mem (fuel : Nat) :
    ∀ (n : Nat) (ds : List Char), (∀ ch ∈ ds, ch ∈ "0123456789".toList) →
      ∀ ch ∈ Nat.toDigitsCore 10 fuel n ds, ch ∈ "0123456789".toList := by
  induction fuel with
  | zero => intro n ds h; simpa [Nat.toDigitsCore] using h
  | succ f ih =>
    intro n ds h
    have hd : ∀ ch ∈ Nat.digitChar (n % 10) :: ds, ch ∈ "0123456789".toList := by
      intro ch hch
      rcases List.mem_cons.mp hch with e | e
      · rw [e]; exact digitChar_mem _ (Nat.mod_lt _ (by decide))
      · exact h ch e
    simp only [Nat.toDigitsCore]
    split
    · exact hd
    · exact ih _ _ hd

theorem itoa_mem (n : Int) : ∀ ch ∈ itoa n, ch ∈ "-0123456789".toList := by
  have key : ∀ m : Nat, ∀ ch ∈ Nat.toDigits 10 m, ch ∈ "-0123456789".toList := by
    intro m ch hch
    have := toDigitsCore_mem (m + 1) m [] (by simp) ch hch
    exact List.mem_cons_of_mem _ this
  intro ch hch
  cases n with
  | ofNat m => exact key m ch hch
  | negSucc m =>
    rcases List.mem_cons.mp hch with e | e
    · rw [e]; decide
    · exact key _ ch e

theorem addParams_eq (c : appLog) (url : Bytes) :
    c.addParams url = url ++ (c.optFields.map (fun f => '&' :: f)).flatten := by
  unfold appLog.addParams appLog.optFields
  by_cases h1 : c.source = [] <;> by_cases h2 : c.unit = [] <;> by_cases h3 : c.follow = true <;>
    simp [h1, h2, h3]

theorem splitOnP_fields (p : Char → Bool) (hp : p '&' = true) :
    ∀ (fs : List Bytes) (x : Bytes), (∀ ch ∈ x, ¬ p ch = true) →
      (∀ f ∈ fs, ∀ ch ∈ f, ¬ p ch = true) →
      (x ++ (fs.map (fun f => '&' :: f)).flatten).splitOnP p = x :: fs := by
  intro fs
  induction fs with
  | nil =>
    intro x hx _
    simpa using List.splitOnP_eq_single p x hx
  | cons f fs ih =>
    intro x hx hfs
    simp only [List.map_cons, List.flatten_cons, List.cons_append]
    rw [List.splitOnP_first p x hx '&' hp]
    rw [ih f (hfs f (List.mem_cons_self f fs)) (fun g hg => hfs g (List.mem_cons_of_mem f hg))]

theorem cutLast_not_mem (c : Char) (s : Bytes) (h : c ∉ s) : cutLast c s = none := by
  induction s with
  | nil => rfl
  | cons x xs ih =>
    have hx : x ≠ c := fun e => h (by simp [e])
    have hxs : c ∉ xs := fun hm => h (List.mem_cons_of_mem _ hm)
    simp [cutLast, ih hxs, hx]

theorem cutLast_append (c : Char) (a b : Bytes) (h : c ∉ b) :
    cutLast c (a ++ c :: b) = some (a, c :: b) := by
  induction a with
  | nil => simp [cutLast, cutLast_not_mem c b h]
  | cons x xs ih => simp [cutLast, ih]

theorem unescapeHost_plain (s : Bytes)
    (h : ∀ ch ∈ s, ch ≠ '%' ∧ hostByteAllowed ch = true) :
    unescapeHostFrom false EscState.plain s = some s := by
  induction s with
  | nil => rfl
  | cons x xs ih =>
    have hx := h x (List.mem_cons_self x xs)
    simp [unescapeHostFrom, hx.1, hx.2, ih (fun ch hch => h ch (List.mem_cons_of_mem _ hch))]

/-- What the bytes of a plain host name have in common. -/
theorem nameByte_facts :
    ∀ x ∈ "abcdefghijklmnopqrstuvwxyzABCDEFGHIJKLMNOPQRSTUVWXYZ0123456789.-".toList,
      x ≠ '@' ∧ x ≠ ':' ∧ x ≠ '[' ∧ x ≠ '%' ∧ hostByteAllowed x = true ∧
      isCTLByte x = false ∧ x ∉ "/?#%".toList := by
  decide

/-- What decimal digits have in common. -/
theorem digitByte_facts :
    ∀ x ∈ "0123456789".toList,
      x ≠ '@' ∧ x ≠ ':' ∧ x ≠ '[' ∧ x ≠ '%' ∧ hostByteAllowed x = true ∧
      isCTLByte x = false ∧ x ∉ "/?#%".toList ∧ isDigitByte x = true := by
  decide

/-- A host made of a plain name, with or without a colon and a numeric port,
is an authority that `net/url` accepts as it stands; it holds no control
byte and none of the bytes that end an authority. -/
theorem parseAuthority_plain (name port host : Bytes)
    (hform : host = name ∨ host = name ++ ':' :: port)
    (hname : ∀ ch ∈ name,
      ch ∈ "abcdefghijklmnopqrstuvwxyzABCDEFGHIJKLMNOPQRSTUVWXYZ0123456789.-".toList)
    (hport : ∀ ch ∈ port, ch ∈ "0123456789".toList) :
    parseAuthority host = some host ∧
      (∀ ch ∈ host, isCTLByte ch = false) ∧ (∀ ch ∈ host, ch ∉ "/?#%".toList) := by
  have hn := fun ch hch => nameByte_facts ch (hname ch hch)
  have hp := fun ch hch => digitByte_facts ch (hport ch hch)
  have hcolon : ('@' : Char) ≠ ':' ∧ hostByteAllowed ':' = true ∧ isCTLByte ':' = false
      ∧ ':' ∉ "/?#%".toList := by decide
  have hall : ∀ ch ∈ host, ch ≠ '@' ∧ ch ≠ '%' ∧ hostByteAllowed ch = true ∧
      isCTLByte ch = false ∧ ch ∉ "/?#%".toList := by
    intro ch hch
    rcases hform with e | e
    · rw [e] at hch
      exact ⟨(hn ch hch).1, (hn ch hch).2.2.2.1, (hn ch hch).2.2.2.2.1, (hn ch hch).2.2.2.2.2.1,
        (hn ch hch).2.2.2.2.2.2⟩
    · rw [e] at hch
      rcases List.mem_append.mp hch with h | h
      · exact ⟨(hn ch h).1, (hn ch h).2.2.2.1, (hn ch h).2.2.2.2.1, (hn ch h).2.2.2.2.2.1,
          (hn ch h).2.2.2.2.2.2⟩
      · rcases List.mem_cons.mp h with h | h
        · rw [h]; decide
        · exact ⟨(hp ch h).1, (hp ch h).2.2.2.1, (hp ch h).2.2.2.2.1, (hp ch h).2.2.2.2.2.1,
            (hp ch h).2.2.2.2.2.2.1⟩
  have hat : cutLast '@' host = none :=
    cutLast_not_mem '@' host (fun hm => (hall _ hm).1 rfl)
  have hun : unescapeHostFrom false EscState.plain host = some host :=
    unescapeHost_plain host (fun ch hch => ⟨(hall ch hch).2.1, (hall ch hch).2.2.1⟩)
  have hbr : "[".toList.isPrefixOf host = false := by
    have hnm : "[".toList.isPrefixOf name = false := by
      cases name with
      | nil => rfl
      | cons x xs =>
        have hx : x ≠ '[' := (hn x (List.mem_cons_self x xs)).2.2.1
        simp [List.isPrefixOf, hx.symm]
    rcases hform with e | e
    · rw [e]; exact hnm
    · rw [e]
      cases name with
      | nil => rfl
      | cons x xs =>
        have hx : x ≠ '[' := (hn x (List.mem_cons_self x xs)).2.2.1
        simp [List.isPrefixOf, hx.symm]
  refine ⟨?_, fun ch hch => (hall ch hch).2.2.2.1, fun ch hch => (hall ch hch).2.2.2.2⟩
  unfold parseAuthority
  rw [hat]
  unfold parseHost
  simp only [hbr, Bool.false_eq_true, if_false]
  rcases hform with e | e
  · have hc : cutLast ':' host = none :=
      cutLast_not_mem ':' host (fun hm => by rw [e] at hm; exact (hn _ hm).2.1 rfl)
    rw [hc]
    exact hun
  · have hc : cutLast ':' host = some (name, ':' :: port) := by
      rw [e]
      exact cutLast_append ':' name port (fun hm => (hp _ hm).2.1 rfl)
    have hv : validOptionalPort (':' :: port) = true := by
      simp only [validOptionalPort, beq_self_eq_true, Bool.true_and, List.all_eq_true]
      exact fun ch hch => (hp ch hch).2.2.2.2.2.2.2
    rw [hc]
    simp only [hv, if_true]
    exact hun

theorem urlParse_base (sch host path Q : Bytes)
    (hs : sch = "http".toList ∨ sch = "https".toList)
    (hhost : ∀ ch ∈ host, ch ∉ "/?#%".toList)
    (hauthority : parseAuthority host = some host)
    (hpath : ∀ ch ∈ path, ch ∉ "?#%".toList)
    (hQ : '#' ∉ Q)
    (hctl : ∀ ch ∈ host ++ path ++ Q, isCTLByte ch = false) :
    urlParse (sch ++ "://".toList ++ host ++ ('/' :: path) ++ ('?' :: Q))
      = Except.ok ⟨sch, [], host, '/' :: path, Q, []⟩ := by
  have hh1 : '/' ∉ host := fun hm => hhost _ hm (by decide)
  have hh2 : '?' ∉ host := fun hm => hhost _ hm (by decide)
  have hh3 : '#' ∉ host := fun hm => hhost _ hm (by decide)
  have hp1 : '?' ∉ path := fun hm => hpath _ hm (by decide)
  have hp2 : '#' ∉ path := fun hm => hpath _ hm (by decide)
  have hp3 : '%' ∉ path := fun hm => hpath _ hm (by decide)
  have hsch : '#' ∉ sch := by rcases hs with rfl | rfl <;> decide
  have hschctl : ∀ ch ∈ sch ++ "://".toList, isCTLByte ch = false := by
    rcases hs with rfl | rfl <;> decide
  have hfrag : '#' ∉ sch ++ "://".toList ++ host ++ ('/' :: path) ++ ('?' :: Q) := by
    have h0 : '#' ∉ "://".toList := by decide
    simp only [List.mem_append, List.mem_cons, not_or]
    exact ⟨⟨⟨⟨hsch, h0⟩, hh3⟩, by decide, hp2⟩, by decide, hQ⟩
  have hany : ¬ ((sch ++ "://".toList ++ host ++ ('/' :: path) ++ ('?' :: Q)).any isCTLByte
      = true) := by
    intro hbad
    obtain ⟨ch, hmem, hch⟩ := List.any_eq_true.mp hbad
    have hgood : isCTLByte ch = false := by
      simp only [List.mem_append, List.mem_cons] at hmem
      rcases hmem with ((h | h) | h | h) | h | h
      · exact hschctl ch (List.mem_append.mpr h)
      · exact hctl ch (by simp [h])
      · rw [h]; decide
      · exact hctl ch (by simp [h])
      · rw [h]; decide
      · exact hctl ch (by simp [h])
    rw [hgood] at hch
    exact Bool.false_ne_true hch
  have hrest : urlSplit '?' true ("//".toList ++ host ++ ('/' :: path) ++ ('?' :: Q))
      = ("//".toList ++ host ++ ('/' :: path), Q) := by
    have h0 : '?' ∉ "//".toList ++ host ++ ('/' :: path) := by
      have h1 : '?' ∉ "//".toList := by decide
      simp only [List.mem_append, List.mem_cons, not_or]
      exact ⟨⟨h1, hh2⟩, by decide, hp1⟩
    simpa using urlSplit_append '?' true _ Q h0
  have hauth : urlSplit '/' false (host ++ ('/' :: path)) = (host, '/' :: path) := by
    simpa using urlSplit_append '/' false host path hh1
  have hun : unescape false ('/' :: path) = some ('/' :: path) := by
    apply unescape_plain
    · simp only [List.mem_cons, not_or]
      exact ⟨by decide, hp3⟩
    · exact Or.inl rfl
  unfold urlParse
  rw [urlSplit_not_mem '#' true _ hfrag]
  simp only [if_true]
  unfold urlParseNoFrag
  rw [if_neg hany]
  have hwhole : sch ++ "://".toList ++ host ++ ('/' :: path) ++ ('?' :: Q)
      = sch ++ ':' :: ("//".toList ++ host ++ ('/' :: path) ++ ('?' :: Q)) := by simp
  rw [hwhole]
  rcases hs with rfl | rfl
  · rw [getscheme_http]
    have hstar : ¬ ("http".toList ++ ':' :: ("//".toList ++ host ++ ('/' :: path) ++ ('?' :: Q))
        = ['*']) := by simp
    simp only [hstar, if_false, hrest]
    have hmap : List.map Char.toLower "http".toList = "http".toList := by decide
    have hpre1 : "/".toList.isPrefixOf ("//".toList ++ host ++ ('/' :: path)) = true := by simp
    have hpre2 : "//".toList.isPrefixOf ("//".toList ++ host ++ ('/' :: path)) = true := by simp
    have hdrop : List.drop 2 ("//".toList ++ host ++ ('/' :: path)) = host ++ ('/' :: path) := by
      simp
    have hne : "http".toList ≠ [] := by decide
    simp [hmap, hpre1, hpre2, hdrop, hauth, hauthority, hun, hne]
  · rw [getscheme_https]
    have hstar : ¬ ("https".toList ++ ':' :: ("//".toList ++ host ++ ('/' :: path) ++ ('?' :: Q))
        = ['*']) := by simp
    simp only [hstar, if_false, hrest]
    have hmap : List.map Char.toLower "https".toList = "https".toList := by decide
    have hpre1 : "/".toList.isPrefixOf ("//".toList ++ host ++ ('/' :: path)) = true := by simp
    have hpre2 : "//".toList.isPrefixOf ("//".toList ++ host ++ ('/' :: path)) = true := by simp
    have hdrop : List.drop 2 ("//".toList ++ host ++ ('/' :: path)) = host ++ ('/' :: path) := by
      simp
    have hne : "https".toList ≠ [] := by decide
    simp [hmap, hpre1, hpre2, hdrop, hauth, hauthority, hun, hne]

theorem parseField_kv (k v : Bytes) (hk1 : '=' ∉ k) (hk2 : '%' ∉ k)
    (hk3 : '+' ∉ k) (hk4 : ';' ∉ k) (hv1 : '%' ∉ v) (hv2 : '+' ∉ v) (hv3 : ';' ∉ v) :
    parseField (k ++ '=' :: v) = some (k, v) := by
  have hne : k ++ '=' :: v ≠ [] := by simp
  have hsemi : ';' ∉ k ++ '=' :: v := by
    simp only [List.mem_append, List.mem_cons, not_or]
    exact ⟨hk4, by decide, hv3⟩
  have hs : urlSplit '=' true (k ++ '=' :: v) = (k, v) := by
    simpa using urlSplit_append '=' true k v hk1
  unfold parseField
  rw [if_neg hsemi, if_neg hne]
  simp [hs, unescape_plain true k hk2 (Or.inr hk3), unescape_plain true v hv1 (Or.inr hv2)]

/-- The parsed query of the URL that `appLog.Run` builds, when the source and
the unit hold none of the bytes that delimit or escape query fields. -/
theorem Query_fields (c : appLog) (u : URL)
    (hq : u.RawQuery = "lines=".toList ++ itoa c.lines
      ++ (c.optFields.map (fun f => '&' :: f)).flatten)
    (hsrc : ∀ ch ∈ c.source, ch ∉ "&;#%+".toList)
    (hunit : ∀ ch ∈ c.unit, ch ∉ "&;#%+".toList) :
    u.Query = ("lines".toList, itoa c.lines) ::
      ((if c.source ≠ [] then [("source".toList, c.source)] else []) ++
       (if c.unit ≠ [] then [("unit".toList, c.unit)] else []) ++
       (if c.follow = true then [("follow".toList, "1".toList)] else [])) := by
  have hi : ∀ ch ∈ itoa c.lines, ch ∉ "&;#%+".toList := by
    intro ch hch hbad
    have h1 := itoa_mem c.lines ch hch
    have key : ∀ x ∈ "-0123456789".toList, x ∉ "&;#%+".toList := by decide
    exact key ch h1 hbad
  have sepOf : ∀ ch : Char, (ch == '&') = true → ch ∈ "&;#%+".toList := by
    intro ch h
    simp only [beq_iff_eq] at h
    rw [h]
    decide
  have sepLit : ∀ lit : Bytes, (∀ x ∈ lit, x ∉ "&;#%+".toList) → ∀ (s : Bytes),
      (∀ ch ∈ s, ch ∉ "&;#%+".toList) →
      ∀ ch ∈ lit ++ s, ¬ (ch == '&') = true := by
    intro lit hlit s hs ch hch hsep
    rcases List.mem_append.mp hch with h | h
    · exact hlit ch h (sepOf ch hsep)
    · exact hs ch h (sepOf ch hsep)
  have hsplit : u.RawQuery.splitOnP (fun ch => ch == '&')
      = ("lines=".toList ++ itoa c.lines) :: c.optFields := by
    rw [hq]
    apply splitOnP_fields _ (by decide)
    · exact sepLit _ (by decide) _ hi
    · intro f hf
      unfold appLog.optFields at hf
      simp only [List.mem_append] at hf
      rcases hf with (hf | hf) | hf
      · by_cases h1 : c.source = []
        · simp [h1] at hf
        · simp only [ne_eq, h1, not_false_eq_true, if_true, List.mem_singleton] at hf
          rw [hf]
          exact sepLit _ (by decide) _ hsrc
      · by_cases h2 : c.unit = []
        · simp [h2] at hf
        · simp only [ne_eq, h2, not_false_eq_true, if_true, List.mem_singleton] at hf
          rw [hf]
          exact sepLit _ (by decide) _ hunit
      · by_cases h3 : c.follow = true
        · simp only [h3, if_true, List.mem_singleton] at hf
          rw [hf]
          decide
        · simp [h3] at hf
  have pl : parseField ("lines=".toList ++ itoa c.lines) = some ("lines".toList, itoa c.lines) :=
    parseField_kv "lines".toList (itoa c.lines) (by decide) (by decide) (by decide) (by decide)
      (fun hm => hi _ hm (by decide)) (fun hm => hi _ hm (by decide))
      (fun hm => hi _ hm (by decide))
  have ps : parseField ("source=".toList ++ c.source) = some ("source".toList, c.source) :=
    parseField_kv "source".toList c.source (by decide) (by decide) (by decide) (by decide)
      (fun hm => hsrc _ hm (by decide)) (fun hm => hsrc _ hm (by decide))
      (fun hm => hsrc _ hm (by decide))
  have pu : parseField ("unit=".toList ++ c.unit) = some ("unit".toList, c.unit) :=
    parseField_kv "unit".toList c.unit (by decide) (by decide) (by decide) (by decide)
      (fun hm => hunit _ hm (by decide)) (fun hm => hunit _ hm (by decide))
      (fun hm => hunit _ hm (by decide))
  have pf : parseField "follow=1".toList = some ("follow".toList, "1".toList) := by decide
  unfold URL.Query
  rw [hsplit]
  unfold appLog.optFields
  by_cases h1 : c.source = [] <;> by_cases h2 : c.unit = [] <;> by_cases h3 : c.follow = true <;>
    simp only [h1, h2, h3, ne_eq, not_true_eq_false, not_false_eq_true, if_true, if_false,
      List.nil_append, List.append_nil, List.singleton_append, List.cons_append,
      List.filterMap_cons, List.filterMap_nil, pl, ps, pu, pf, Bool.false_eq_true]

/-- What holds of the bytes of the source, of the unit and of the field names
holds of every byte of the optional fields. -/
theorem optFields_forall (c : appLog) (P : Char → Prop)
    (hlit : ∀ ch ∈ "source=unit=follow=1".toList, P ch)
    (hs : ∀ ch ∈ c.source, P ch) (hu : ∀ ch ∈ c.unit, P ch) :
    ∀ f ∈ c.optFields, ∀ ch ∈ f, P ch := by
  have l1 : ∀ x ∈ "source=".toList, x ∈ "source=unit=follow=1".toList := by decide
  have l2 : ∀ x ∈ "unit=".toList, x ∈ "source=unit=follow=1".toList := by decide
  have l3 : ∀ x ∈ "follow=1".toList, x ∈ "source=unit=follow=1".toList := by decide
  intro f hf ch hch
  unfold appLog.optFields at hf
  simp only [List.mem_append] at hf
  rcases hf with (hf | hf) | hf
  · by_cases h1 : c.source = []
    · simp [h1] at hf
    · simp only [ne_eq, h1, not_false_eq_true, if_true, List.mem_singleton] at hf
      rw [hf] at hch
      rcases List.mem_append.mp hch with h | h
      · exact hlit ch (l1 ch h)
      · exact hs ch h
  · by_cases h2 : c.unit = []
    · simp [h2] at hf
    · simp only [ne_eq, h2, not_false_eq_true, if_true, List.mem_singleton] at hf
      rw [hf] at hch
      rcases List.mem_append.mp hch with h | h
      · exact hlit ch (l2 ch h)
      · exact hu ch h
  · by_cases h3 : c.follow = true
    · simp only [h3, if_true, List.mem_singleton] at hf
      rw [hf] at hch
      exact hlit ch (l3 ch hch)
    · simp [h3] at hf

/-- However the exchange with the server goes on, a run that has created its
request leaves it as the request sent. -/
theorem Run_sent (env : Env) (c : appLog) (stdout : Bytes) (fuel : Nat) (hfuel : 3 ≤ fuel)
    (appName url : Bytes) (req : Request)
    (hG : env.Guess = Except.ok appName)
    (hU : env.GetURL ("/apps/".toList ++ appName ++ "/log?lines=".toList ++ itoa c.lines)
      = Except.ok url)
    (hR : NewRequest "GET".toList (c.addParams url) = Except.ok req) :
    ∃ r : RunResult, appLog.Run env c stdout fuel = some r ∧ r.sent = some req := by
  cases hD : env.Do req with
  | error e =>
    exact ⟨⟨stdout, some e, some req, none, [], 0, none⟩, by simp only [appLog.Run, hG, hU, hR, hD], rfl⟩
  | ok response =>
    by_cases hS : response.StatusCode = StatusNoContent
    · exact ⟨_, Run_on_204 env c stdout fuel req response ⟨_, _, hG, hU, hR, hD⟩ hS, rfl⟩
    · exact ⟨_, Run_streams env c stdout fuel req response hfuel ⟨_, _, hG, hU, hR, hD⟩ hS, rfl⟩

/-! ## C9: the request -/

/-- C9 as stated fails. With the source `a&unit=b` and no unit, the request
sent has the path `/apps/myapp/log`, but its parsed query has the source `a`
and a unit `b`. The sources `a;b`, `a+b`, `a%41` and `a#b` do not come out of
the parsed query as given either, and the application names `a?b`, `a#b` and
`a%41` give another path. With a line feed in the source, or with the target
`http://tsuru.example:x`, `http.NewRequest` fails: `Run` returns its error and
sends no request. -/
theorem Run_request_counterexample :
    (appLog.Run demoEnv ⟨"a&unit=b".toList, [], 10, false⟩ [] 3).map
      (fun r => r.sent.map (fun q =>
        (q.Method, q.URL.Path, q.URL.RawQuery, Get q.URL.Query "source".toList,
          Get q.URL.Query "unit".toList)))
    = some (some ("GET".toList, "/apps/myapp/log".toList,
        "lines=10&source=a&unit=b".toList, "a".toList, "b".toList)) ∧
    ["a;b".toList, "a+b".toList, "a%41".toList, "a#b".toList].map
      (fun source => (appLog.Run demoEnv ⟨source, [], 10, false⟩ [] 3).map
        (fun r => r.sent.map (fun q => lookupKey "source".toList q.URL.Query)))
    = [some (some none), some (some (some "a b".toList)), some (some (some "aA".toList)),
        some (some (some "a".toList))] ∧
    ["a?b".toList, "a#b".toList, "a%41".toList].map
      (fun appName => (appLog.Run { demoEnv with Guess := Except.ok appName }
        appLog.defaults [] 3).map (fun r => r.sent.map (fun q => q.URL.Path)))
    = [some (some "/apps/a".toList), some (some "/apps/a".toList),
        some (some "/apps/aA/log".toList)] ∧
    (appLog.Run demoEnv ⟨"a\nb".toList, [], 10, false⟩ [] 3).map
      (fun r => (r.sent, r.err.isSome)) = some (none, true) ∧
    (appLog.Run
      { demoEnv with GetURL := fun p => Except.ok ("http://tsuru.example:x".toList ++ p) }
      appLog.defaults [] 3).map (fun r => (r.sent, r.err.isSome)) = some (none, true) := by
  refine ⟨?_, ?_, ?_, ?_, ?_⟩ <;> rfl

/-- C9, amended: `Flags()` leaves the line count 10, an empty source, an
empty unit and `follow` unset where no flag is given. When `cmd.GetURL` puts
before the path an `http` or `https` target whose host is a name of letters,
digits, dots and hyphens, alone or followed by a colon and a decimal port,
when the application name, the source and the unit hold no control byte, the
application name holds none of `?`, `#`, `%`, and the source and the unit
hold none of `&`, `;`, `#`, `%`, `+`, the request that `appLog.Run` sends is
a GET whose path is `/apps/<appName>/log` and whose parsed query has `lines`
equal to the line count, `source` equal to the source exactly when the source
is not empty, `unit` equal to the unit exactly when the unit is not empty,
and `follow` equal to `1` exactly when `follow` is set. -/
theorem Run_request (env : Env) (c : appLog) (stdout : Bytes) (fuel : Nat)
    (appName base host name port : Bytes) (hfuel : 3 ≤ fuel)
    (hG : env.Guess = Except.ok appName)
    (hURL : ∀ p : Bytes, env.GetURL p = Except.ok (base ++ p))
    (hbase : base = "http://".toList ++ host ∨ base = "https://".toList ++ host)
    (hhost : host = name ∨ host = name ++ ':' :: port)
    (hname : ∀ ch ∈ name,
      ch ∈ "abcdefghijklmnopqrstuvwxyzABCDEFGHIJKLMNOPQRSTUVWXYZ0123456789.-".toList)
    (hport : ∀ ch ∈ port, ch ∈ "0123456789".toList)
    (hctl : ∀ ch ∈ appName ++ c.source ++ c.unit, isCTLByte ch = false)
    (happ : ∀ ch ∈ appName, ch ∉ "?#%".toList)
    (hsrc : ∀ ch ∈ c.source, ch ∉ "&;#%+".toList)
    (hunit : ∀ ch ∈ c.unit, ch ∉ "&;#%+".toList) :
    (∀ (guessing : List Flag) (c0 : appLog),
      (appLog.Flags guessing c0).1 = ⟨[], [], 10, false⟩) ∧
    ∃ (r : RunResult) (req : Request),
      appLog.Run env c stdout fuel = some r ∧ r.sent = some req ∧
      req.Method = "GET".toList ∧
      req.URL.Path = "/apps/".toList ++ appName ++ "/log".toList ∧
      lookupKey "lines".toList req.URL.Query = some (itoa c.lines) ∧
      lookupKey "source".toList req.URL.Query
        = (if c.source = [] then none else some c.source) ∧
      lookupKey "unit".toList req.URL.Query = (if c.unit = [] then none else some c.unit) ∧
      lookupKey "follow".toList req.URL.Query
        = (if c.follow = true then some "1".toList else none) := by
  refine ⟨fun _ _ => rfl, ?_⟩
  obtain ⟨sch, hsch, hb⟩ : ∃ sch : Bytes,
      (sch = "http".toList ∨ sch = "https".toList) ∧ base = sch ++ "://".toList ++ host := by
    rcases hbase with h | h
    · exact ⟨"http".toList, Or.inl rfl, by rw [h]; rfl⟩
    · exact ⟨"https".toList, Or.inr rfl, by rw [h]; rfl⟩
  obtain ⟨hauthority, hhostctl, hhostsep⟩ := parseAuthority_plain name port host hhost hname hport
  have happctl : ∀ ch ∈ appName, isCTLByte ch = false := fun ch h => hctl ch (by simp [h])
  have hsrcctl : ∀ ch ∈ c.source, isCTLByte ch = false := fun ch h => hctl ch (by simp [h])
  have hunitctl : ∀ ch ∈ c.unit, isCTLByte ch = false := fun ch h => hctl ch (by simp [h])
  have hi : ∀ ch ∈ itoa c.lines, ch ∉ "&;#%+".toList := by
    intro ch hch hbad
    have key : ∀ x ∈ "-0123456789".toList, x ∉ "&;#%+".toList := by decide
    exact key ch (itoa_mem c.lines ch hch) hbad
  have hictl : ∀ ch ∈ itoa c.lines, isCTLByte ch = false := by
    intro ch hch
    have key : ∀ x ∈ "-0123456789".toList, isCTLByte x = false := by decide
    exact key ch (itoa_mem c.lines ch hch)
  have hpath : ∀ ch ∈ "apps/".toList ++ appName ++ "/log".toList, ch ∉ "?#%".toList := by
    intro ch hch
    have k1 : ∀ x ∈ "apps/".toList, x ∉ "?#%".toList := by decide
    have k2 : ∀ x ∈ "/log".toList, x ∉ "?#%".toList := by decide
    rcases List.mem_append.mp hch with h | h
    · rcases List.mem_append.mp h with h | h
      · exact k1 ch h
      · exact happ ch h
    · exact k2 ch h
  have hpathctl : ∀ ch ∈ "apps/".toList ++ appName ++ "/log".toList, isCTLByte ch = false := by
    intro ch hch
    have k1 : ∀ x ∈ "apps/".toList, isCTLByte x = false := by decide
    have k2 : ∀ x ∈ "/log".toList, isCTLByte x = false := by decide
    rcases List.mem_append.mp hch with h | h
    · rcases List.mem_append.mp h with h | h
      · exact k1 ch h
      · exact happctl ch h
    · exact k2 ch h
  have hquery_all : ∀ P : Char → Prop, (∀ ch ∈ "lines=&source=unit=follow=1".toList, P ch) →
      (∀ ch ∈ itoa c.lines, P ch) → (∀ ch ∈ c.source, P ch) → (∀ ch ∈ c.unit, P ch) →
      ∀ ch ∈ "lines=".toList ++ itoa c.lines ++ (c.optFields.map (fun f => '&' :: f)).flatten,
        P ch := by
    intro P hlit hI hS hU ch hch
    have l1 : ∀ x ∈ "lines=".toList, x ∈ "lines=&source=unit=follow=1".toList := by decide
    have l2 : ∀ x ∈ "source=unit=follow=1".toList,
        x ∈ "lines=&source=unit=follow=1".toList := by decide
    rcases List.mem_append.mp hch with h | h
    · rcases List.mem_append.mp h with h | h
      · exact hlit ch (l1 ch h)
      · exact hI ch h
    · obtain ⟨l, hl, hchl⟩ := List.mem_flatten.mp h
      obtain ⟨f, hf, hfl⟩ := List.mem_map.mp hl
      rw [← hfl] at hchl
      rcases List.mem_cons.mp hchl with e | e
      · rw [e]; exact hlit '&' (by decide)
      · exact optFields_forall c P (fun x hx => hlit x (l2 x hx)) hS hU f hf ch e
  have hQ : '#' ∉ "lines=".toList ++ itoa c.lines
      ++ (c.optFields.map (fun f => '&' :: f)).flatten := by
    intro hm
    exact hquery_all (fun ch => ch ≠ '#') (by decide) (fun ch h e => hi ch h (by rw [e]; decide))
      (fun ch h e => hsrc ch h (by rw [e]; decide))
      (fun ch h e => hunit ch h (by rw [e]; decide)) '#' hm rfl
  have hQctl : ∀ ch ∈ "lines=".toList ++ itoa c.lines
      ++ (c.optFields.map (fun f => '&' :: f)).flatten, isCTLByte ch = false :=
    hquery_all (fun ch => isCTLByte ch = false) (by decide) hictl hsrcctl hunitctl
  have hallctl : ∀ ch ∈ host ++ ("apps/".toList ++ appName ++ "/log".toList)
      ++ ("lines=".toList ++ itoa c.lines ++ (c.optFields.map (fun f => '&' :: f)).flatten),
      isCTLByte ch = false := by
    intro ch hch
    rcases List.mem_append.mp hch with h | h
    · rcases List.mem_append.mp h with h | h
      · exact hhostctl ch h
      · exact hpathctl ch h
    · exact hQctl ch h
  have hurl : c.addParams (base ++ ("/apps/".toList ++ appName ++ "/log?lines=".toList
      ++ itoa c.lines))
      = sch ++ "://".toList ++ host ++ ('/' :: ("apps/".toList ++ appName ++ "/log".toList))
        ++ ('?' :: ("lines=".toList ++ itoa c.lines
          ++ (c.optFields.map (fun f => '&' :: f)).flatten)) := by
    rw [addParams_eq, hb]
    have e1 : "/apps/".toList = '/' :: "apps/".toList := rfl
    have e2 : "/log?lines=".toList = "/log".toList ++ '?' :: "lines=".toList := rfl
    rw [e1, e2]
    simp only [List.append_assoc, List.cons_append]
  have hparse := urlParse_base sch host ("apps/".toList ++ appName ++ "/log".toList)
    ("lines=".toList ++ itoa c.lines ++ (c.optFields.map (fun f => '&' :: f)).flatten)
    hsch hhostsep hauthority hpath hQ hallctl
  have hR : NewRequest "GET".toList (c.addParams (base ++ ("/apps/".toList ++ appName
      ++ "/log?lines=".toList ++ itoa c.lines)))
      = Except.ok ⟨"GET".toList, ⟨sch, [], removeEmptyPort host,
          '/' :: ("apps/".toList ++ appName ++ "/log".toList),
          "lines=".toList ++ itoa c.lines ++ (c.optFields.map (fun f => '&' :: f)).flatten,
          []⟩⟩ := by
    unfold NewRequest
    rw [hurl, hparse]
    rfl
  obtain ⟨r, hr, hsent⟩ := Run_sent env c stdout fuel hfuel appName _ _ hG (hURL _) hR
  have hquery := Query_fields c ⟨sch, [], removeEmptyPort host,
      '/' :: ("apps/".toList ++ appName ++ "/log".toList),
      "lines=".toList ++ itoa c.lines ++ (c.optFields.map (fun f => '&' :: f)).flatten, []⟩
      rfl hsrc hunit
  have n1 : "lines".toList ≠ "source".toList := by decide
  have n2 : "lines".toList ≠ "unit".toList := by decide
  have n3 : "lines".toList ≠ "follow".toList := by decide
  have n4 : "source".toList ≠ "unit".toList := by decide
  have n5 : "source".toList ≠ "follow".toList := by decide
  have n6 : "unit".toList ≠ "follow".toList := by decide
  refine ⟨r, _, hr, hsent, rfl, rfl, ?_, ?_, ?_, ?_⟩ <;>
    simp only [hquery] <;>
    by_cases h1 : c.source = [] <;> by_cases h2 : c.unit = [] <;>
    by_cases h3 : c.follow = true <;>
    simp only [h1, h2, h3, ne_eq, not_true_eq_false, not_false_eq_true, if_true, if_false,
      List.nil_append, List.append_nil, List.singleton_append, List.cons_append, lookupKey,
      n1, n2, n3, n4, n5, n6, n1.symm, n2.symm, n3.symm, n4.symm, n5.symm, n6.symm,
      Bool.false_eq_true]

/-- C9, amended, at the sample target `http://tsuru.example:8080` with the
flags `--source web --unit u1 --follow`; and with no flag given, where the
request has `lines=10` and no other field. -/
theorem Run_request_witness :
    appLog.defaults = ⟨[], [], 10, false⟩ ∧
    (appLog.Run demoEnv appLog.defaults [] 3).map
      (fun r => r.sent.map (fun q => (q.Method, q.URL.Path, q.URL.Query)))
      = some (some ("GET".toList, "/apps/myapp/log".toList,
          [("lines".toList, "10".toList)])) ∧
    ((∀ (guessing : List Flag) (c0 : appLog),
      (appLog.Flags guessing c0).1 = ⟨[], [], 10, false⟩) ∧
    ∃ (r : RunResult) (req : Request),
      appLog.Run demoEnv ⟨"web".toList, "u1".toList, 10, true⟩ [] 3 = some r ∧
      r.sent = some req ∧
      req.Method = "GET".toList ∧
      req.URL.Path = "/apps/".toList ++ "myapp".toList ++ "/log".toList ∧
      lookupKey "lines".toList req.URL.Query
        = some (itoa (appLog.mk "web".toList "u1".toList 10 true).lines) ∧
      lookupKey "source".toList req.URL.Query
        = (if (appLog.mk "web".toList "u1".toList 10 true).source = [] then none
            else some (appLog.mk "web".toList "u1".toList 10 true).source) ∧
      lookupKey "unit".toList req.URL.Query
        = (if (appLog.mk "web".toList "u1".toList 10 true).unit = [] then none
            else some (appLog.mk "web".toList "u1".toList 10 true).unit) ∧
      lookupKey "follow".toList req.URL.Query
        = (if (appLog.mk "web".toList "u1".toList 10 true).follow = true then some "1".toList
            else none)) :=
  ⟨rfl, rfl,
    Run_request demoEnv ⟨"web".toList, "u1".toList, 10, true⟩ [] 3 "myapp".toList
      "http://tsuru.example:8080".toList "tsuru.example:8080".toList "tsuru.example".toList
      "8080".toList (by decide) rfl (fun _ => rfl) (Or.inl (by decide)) (Or.inr (by decide))
      (by decide) (by decide) (by decide) (by decide) (by decide) (by decide)⟩

/-! ## Lemmas on `renderPlans` -/

theorem goDiv_small (v : Int) (h1 : -1048576 < v) (h2 : v < 1048576) :
    goDiv (goDiv v 1024) 1024 = 0 := by
  unfold goDiv
  rcases Int.le_total 0 v with h | h
  · rw [Int.tdiv_eq_ediv h (by decide), Int.tdiv_eq_ediv (by omega) (by decide)]
    omega
  · obtain ⟨u, rfl⟩ : ∃ u : Int, v = -u := ⟨-v, by omega⟩
    have hu : 0 ≤ u := by omega
    rw [Int.neg_tdiv, Int.neg_tdiv, Int.tdiv_eq_ediv hu (by decide),
      Int.tdiv_eq_ediv (by omega) (by decide)]
    omega

/-- The loop of `renderPlans` adds the rows of the plans, in their order,
after the rows already in the table, and leaves the headers alone. -/
theorem foldl_addPlan (isHuman : Bool) (plans : List Plan) :
    ∀ t : Table, plans.foldl (addPlan isHuman) t =
      ⟨t.Headers, t.rows ++ plans.map (fun p => [p.Name,
        if isHuman = true then humanCell p.Memory else itoa p.Memory,
        if isHuman = true then humanCell p.Swap else itoa p.Swap,
        itoa p.CpuShare, p.Router, FormatBool p.Default])⟩ := by
  induction plans with
  | nil => intro t; simp
  | cons p ps ih =>
    intro t
    rw [List.foldl_cons, ih]
    simp [addPlan, Table.AddRow]

/-! ## C11: the table of plans -/

/-- C11 as stated fails: the byte counts of a plan are signed, and a memory
of -1048576 bytes, which is below 1048576, shows as `-1 MB` with the human
flag set, not as `0 MB` (a swap of -1048575 bytes does show as `0 MB`). -/
theorem renderPlans_rows_counterexample :
    (planTable samplePlans true).rows =
      [["small".toList, "512 MB".toList, "0 MB".toList, "100".toList, "hipache".toList,
         "true".toList],
       ["odd".toList, "-1 MB".toList, "0 MB".toList, "2".toList, "galeb".toList,
         "false".toList]] := by
  decide

/-- C11, amended: for every list of plans, `renderPlans` renders a table
with the headers Name, Memory, Swap, Cpu Share, Router, Default and exactly
one row per plan, in input order, with the plan's name, memory, swap, CPU
share, router and default flag. With the human flag set the memory and swap
cells are the byte count divided by 1024 and again by 1024, each quotient
truncated toward zero, followed by ` MB`, so that every byte count strictly
between -1048576 and 1048576 shows as `0 MB`; without the flag they are the
decimal byte counts. -/
theorem renderPlans_rows (render : Table → Bytes) (plans : List Plan) (isHuman : Bool) :
    renderPlans render plans isHuman =
      render ⟨["Name".toList, "Memory".toList, "Swap".toList, "Cpu Share".toList,
          "Router".toList, "Default".toList],
        plans.map (fun p => [p.Name,
          if isHuman = true then
            itoa (Int.tdiv (Int.tdiv p.Memory 1024) 1024) ++ " MB".toList
          else itoa p.Memory,
          if isHuman = true then
            itoa (Int.tdiv (Int.tdiv p.Swap 1024) 1024) ++ " MB".toList
          else itoa p.Swap,
          itoa p.CpuShare, p.Router,
          if p.Default = true then "true".toList else "false".toList])⟩ ∧
    (planTable plans isHuman).rows.length = plans.length ∧
    (∀ v : Int, -1048576 < v → v < 1048576 →
      itoa (Int.tdiv (Int.tdiv v 1024) 1024) ++ " MB".toList = "0 MB".toList) := by
  refine ⟨?_, ?_, ?_⟩
  · unfold renderPlans planTable
    rw [foldl_addPlan]
    simp only [NewTable, List.nil_append]
    rfl
  · unfold planTable
    rw [foldl_addPlan]
    simp [NewTable]
  · intro v h1 h2
    have h := goDiv_small v h1 h2
    unfold goDiv at h
    rw [h]
    rfl

end Tsuru
